import Mathlib

/-!
Verification development for the limited-visibility pathfinding repository.

The Rust source is shallowly embedded: pure functions become Lean functions,
stateful code becomes explicit state passing, `f32` arithmetic is modelled
over `ℚ` with the exact constants of the source, machine integers over `ℕ`
(with the word size fixed to 64 bits, as on the 64-bit targets the crate is
built for), and code that can panic returns `Option`.
-/

set_option maxHeartbeats 1000000

/- ------------------------------------------------------------------ -/
/- Kalman filter node, from src/util/filter.rs                        -/
/- ------------------------------------------------------------------ -/

/-- `KalmanNode` from `src/util/filter.rs`: a 1-dimensional Kalman filter
cell with a state and a covariance (`f32` fields, modelled over `ℚ`). -/
structure KalmanNode where
  state : ℚ
  covariance : ℚ
  deriving Repr, DecidableEq

/-- The measurement-noise floor `1e-6` from `KalmanNode::update`, i.e. the
rational `1/1000000` (written with `mkRat` so that it is a normal form the
kernel can evaluate). -/
def kalmanEps : ℚ := mkRat 1 1000000

/-- `KalmanNode::update` (src/util/filter.rs lines 21-26):
`kalman_gain = cov / max(cov + r, 1e-6)`, then
`state += gain * (z - state)` and `cov *= 1 - gain`. -/
def KalmanNode.update (n : KalmanNode) (measurement mcov : ℚ) : KalmanNode :=
  let gain := n.covariance / max (n.covariance + mcov) kalmanEps
  { state := n.state + gain * (measurement - n.state)
    covariance := n.covariance * (1 - gain) }

/-- `KalmanNode::default`: state `0.0`, covariance `1.0`. -/
def KalmanNode.default : KalmanNode := ⟨0, 1⟩

/- ------------------------------------------------------------------ -/
/- Bit-packed grid construction, from                                 -/
/- src/domains/bitpackedgrids/bitpackedgrid2d.rs and mod.rs           -/
/- ------------------------------------------------------------------ -/

/-- `PADDING` from src/domains/bitpackedgrids/mod.rs. -/
def bpPadding : ℕ := 2

/-- `LOG2_BITS_PER_WORD` for a 64-bit `usize`. -/
def bpLog2BitsPerWord : ℕ := 6

/-- The dimension-relevant fields of `BitPackedGrid2d`. -/
structure BitPackedDims where
  mapWidth : ℕ
  mapHeight : ℕ
  cellsLen : ℕ
  deriving Repr, DecidableEq

/-- `BitPackedGrid2d::new` (src/domains/bitpackedgrids/bitpackedgrid2d.rs
lines 35-48), restricted to the computed dimensions:
`map_width_in_words = (width >> LOG2_BITS_PER_WORD) + 1`,
`map_width = map_width_in_words << LOG2_BITS_PER_WORD`,
`map_height = height + 2 * PADDING`,
`map_cells` has `(map_width * map_height) >> LOG2_BITS_PER_WORD` words. -/
def bitPackedNew (width height : ℕ) : BitPackedDims :=
  let mapWidthInWords := (width >>> bpLog2BitsPerWord) + 1
  let mapWidth := mapWidthInWords <<< bpLog2BitsPerWord
  let mapHeight := height + 2 * bpPadding
  let mapSize := (mapWidth * mapHeight) >>> bpLog2BitsPerWord
  ⟨mapWidth, mapHeight, mapSize⟩

/-- The physical width formula claimed by the spec:
`Wp = ceil((W+pad)/word_bits) * word_bits` with `pad = 2`, `word_bits = 64`. -/
def specMapWidth (width : ℕ) : ℕ := ((width + 2 + 63) / 64) * 64

/- ------------------------------------------------------------------ -/
/- GreedyStore, from src/search/pathstore.rs                          -/
/- ------------------------------------------------------------------ -/

/-- The state of a `GreedyStore` (src/search/pathstore.rs lines 99-103):
a single stored path and an optional weight.  The boxed heuristic is
passed to the operations explicitly. -/
structure GreedyStore (N W : Type) where
  store : List N
  weight : Option W
  deriving Repr, DecidableEq

/-- `GreedyStore::new`: empty path, no weight. -/
def GreedyStore.new (N W : Type) : GreedyStore N W := ⟨[], none⟩

/-- `GreedyStore::reinitialize` (lines 121-124). -/
def GreedyStore.reinit (_st : GreedyStore N W) : GreedyStore N W := ⟨[], none⟩

/-- `GreedyStore::add_path` (lines 126-132): overwrite the stored path;
if the new path has a first node, the weight becomes its heuristic value
(the `weight` argument of the Rust method is ignored). -/
def GreedyStore.add_path (h : N → W) (st : GreedyStore N W) (path : List N) :
    GreedyStore N W :=
  { store := path
    weight := match path.head? with
      | some node => some (h node)
      | none => st.weight }

/-- `GreedyStore::get` (lines 138-140): returns the stored weight and
ignores the queried node. -/
def GreedyStore.get (st : GreedyStore N W) (_node : N) : Option W := st.weight

/-- `GreedyStore::next_node` (lines 134-136): the first candidate equal to
the head of the stored path. -/
def GreedyStore.next_node [DecidableEq N] (st : GreedyStore N W) (nodes : List N) :
    Option N :=
  nodes.find? (fun n => st.store.head? = some n)

/-- The operations a caller may perform on a `GreedyStore` between queries. -/
inductive GreedyOp (N : Type) where
  | reinit : GreedyOp N
  | addPath : List N → GreedyOp N
  deriving Repr, DecidableEq

/-- Apply one operation to a greedy store. -/
def greedyApply (h : N → W) (st : GreedyStore N W) : GreedyOp N → GreedyStore N W
  | .reinit => GreedyStore.reinit st
  | .addPath p => st.add_path h p

/-- Run a list of operations on a fresh greedy store. -/
def greedyRun (h : N → W) (ops : List (GreedyOp N)) : GreedyStore N W :=
  ops.foldl (greedyApply h) (GreedyStore.new N W)

/-- One step of the specification fold for `lastNonEmptyHead`. -/
def greedySpecStep : Option N → GreedyOp N → Option N
  | _, .reinit => none
  | acc, .addPath p =>
    match p.head? with
    | some a => some a
    | none => acc

/-- Specification fold: the head of the most recently added non-empty path,
reset by `reinitialize`, unchanged by adding an empty path. -/
def lastNonEmptyHead (ops : List (GreedyOp N)) : Option N :=
  ops.foldl greedySpecStep none

/- ------------------------------------------------------------------ -/
/- Bresenham line drawing, from src/fov/linedrawing.rs                -/
/- ------------------------------------------------------------------ -/

/-- The point emitted by one iteration of the Bresenham loop, undoing the
steep-axis swap and the sign flip (src/fov/linedrawing.rs lines 61-65). -/
def bresPoint (steep : Bool) (sign x y : ℤ) : ℤ × ℤ :=
  if steep then (y, sign * x) else (sign * x, y)

/-- The `for x in x0..=x1` loop of `bresenham` (src/fov/linedrawing.rs
lines 60-78), with the iteration count made explicit.  The bounds check
stops before emitting, the visibility check stops after emitting. -/
def bresLoop (steep : Bool) (sign dx dy ystep : ℤ) (vis bnd : ℤ × ℤ → Bool) :
    ℕ → ℤ → ℤ → ℤ → List (ℤ × ℤ)
  | 0, _, _, _ => []
  | n + 1, x, y, error =>
    let p := bresPoint steep sign x y
    if bnd p then
      if vis p then
        if error - dy < 0 then
          p :: bresLoop steep sign dx dy ystep vis bnd n (x + 1) (y + ystep) (error - dy + dx)
        else
          p :: bresLoop steep sign dx dy ystep vis bnd n (x + 1) y (error - dy)
      else [p]
    else []

/-- `bresenham` (src/fov/linedrawing.rs lines 39-80): axis swap for steep
lines, sign flip for right-to-left lines, then the integer error loop. -/
def bresenham (a b : ℤ × ℤ) (vis bnd : ℤ × ℤ → Bool) : List (ℤ × ℤ) :=
  let steep : Bool := decide (|b.2 - a.2| > |b.1 - a.1|)
  let x0 : ℤ := if steep then a.2 else a.1
  let y0 : ℤ := if steep then a.1 else a.2
  let x1 : ℤ := if steep then b.2 else b.1
  let y1 : ℤ := if steep then b.1 else b.2
  let flip : Bool := decide (x0 > x1)
  let sign : ℤ := if flip then -1 else 1
  let fx0 : ℤ := if flip then -x0 else x0
  let fx1 : ℤ := if flip then -x1 else x1
  let dx := fx1 - fx0
  let dy := |y1 - y0|
  let ystep : ℤ := if y0 < y1 then 1 else -1
  bresLoop steep sign dx dy ystep vis bnd (fx1 - fx0 + 1).toNat fx0 y0 (dx / 2)

/-- Two cells differ by at most 1 in each coordinate. -/
def bresStepAdj (p q : ℤ × ℤ) : Prop :=
  (q.1 - p.1).natAbs ≤ 1 ∧ (q.2 - p.2).natAbs ≤ 1

/-- The final `y` value of the Bresenham loop after `n` error updates. -/
def bresYFinal (dx dy ystep : ℤ) : ℕ → ℤ → ℤ → ℤ
  | 0, y, _ => y
  | n + 1, y, e =>
    if e - dy < 0 then bresYFinal dx dy ystep n (y + ystep) (e - dy + dx)
    else bresYFinal dx dy ystep n y (e - dy)

/-- The number of `y`-steps taken by the Bresenham loop in `n` error
updates starting from error `e`. -/
def bresBorrow (dx dy : ℤ) : ℕ → ℤ → ℤ
  | 0, _ => 0
  | n + 1, e =>
    if e - dy < 0 then 1 + bresBorrow dx dy n (e - dy + dx)
    else bresBorrow dx dy n (e - dy)

/- ------------------------------------------------------------------ -/
/- Visibility kernel, from src/fov/fieldofvision.rs (raycast_matrix)  -/
/- and src/domains/mod.rs (GridVisibility2d::visibility)              -/
/- ------------------------------------------------------------------ -/

/-- The row-major `Matrix<T>` of src/util/matrix.rs: `m[a][b]` reads
`data[a * width + b]`; the backing array of `width * height` elements is
modelled by its access function `entry row col`. -/
structure Mat (α : Type) where
  width : ℕ
  height : ℕ
  entry : ℕ → ℕ → α

/-- The four perimeter anchor cells for ray index `i`
(src/fov/fieldofvision.rs lines 23-28). -/
def raycastPositions (x y : ℤ) (r : ℕ) (i : ℕ) : List (ℤ × ℤ) :=
  [(x - r + i, y - r), (x + r, y - r + i), (x + r - i, y + r), (x - r, y + r - i)]

/-- The anchor filter of `raycast_matrix` (line 31): both coordinates
non-negative and the bounds check passes. -/
def raycastAnchorOk (bnd : ℤ × ℤ → Bool) (p : ℤ × ℤ) : Bool :=
  decide (0 ≤ p.1) && decide (0 ≤ p.2) && bnd p

/-- All cells emitted by the `8r` rays of `raycast_matrix`
(lines 22-37): for each `i in 0..2r`, a Bresenham ray from the center to
every surviving anchor.  The rays themselves carry no bounds check. -/
def raycastVisibleCells (x y : ℤ) (r : ℕ) (vis bnd : ℤ × ℤ → Bool) : List (ℤ × ℤ) :=
  (List.range (2 * r)).flatMap fun i =>
    ((raycastPositions x y r i).filter (raycastAnchorOk bnd)).flatMap fun p =>
      bresenham (x, y) p vis (fun _ => true)

/-- `raycast_matrix` (lines 13-46): a `(2r+1) × (2r+1)` boolean matrix,
initially all `false`; the marking loop sets `m[yi + r - y][xi + r - x]`
for every emitted cell `(xi, yi)`, so an entry is `true` exactly when some
ray emits the corresponding world cell. -/
def raycast_matrix (x y : ℤ) (r : ℕ) (vis bnd : ℤ × ℤ → Bool) : Mat Bool :=
  { width := 2 * r + 1
    height := 2 * r + 1
    entry := fun row col =>
      (raycastVisibleCells x y r vis bnd).any fun c =>
        decide (c.1 + r - x = (col : ℤ)) && decide (c.2 + r - y = (row : ℤ)) }

/- ------------------------------------------------------------------ -/
/- Sample (belief) grid, from src/domains/samplegrids/samplegrid2d.rs -/
/- ------------------------------------------------------------------ -/

/-- `SampleGrid2d` (src/domains/samplegrids/samplegrid2d.rs lines 14-26):
a matrix of Kalman nodes indexed `sample_grid[x][y]` and a bit-packed
ground-truth grid of the same logical size.  Both are modelled by their
access functions; the padding of the bit-packed ground truth guarantees
reads outside the logical bounds are `false`, which the model bakes into
`groundTruth` being arbitrary only on in-bounds cells (callers only read
in-bounds cells here). -/
structure SampleGrid where
  width : ℕ
  height : ℕ
  sample : ℕ → ℕ → KalmanNode
  groundTruth : ℕ → ℕ → Bool

/-- `NEAREST_THRESHOLD = 0.5`, i.e. the rational `1/2`. -/
def nearestThreshold : ℚ := mkRat 1 2

/-- `SampleGrid2d::get_value` (lines 48-50): in bounds and belief state
strictly above the threshold. -/
def SampleGrid.get_value (g : SampleGrid) (x y : ℕ) : Bool :=
  decide (x < g.width) && decide (y < g.height) &&
    decide (nearestThreshold < (g.sample x y).state)

/-- `Grid2d::bounds_check` (src/domains/mod.rs lines 42-45). -/
def SampleGrid.bounds_check (g : SampleGrid) (x y : ℕ) : Bool :=
  decide (x < g.width) && decide (y < g.height)

/-- The visibility oracle `GridVisibility2d::visibility` passes to
`raycast_matrix` (src/domains/mod.rs line 141): `isize` coordinates cast
to `usize` and fed to `get_value`; a negative coordinate wraps to a huge
`usize`, which fails the in-bounds test inside `get_value`. -/
def SampleGrid.visOracle (g : SampleGrid) (p : ℤ × ℤ) : Bool :=
  if 0 ≤ p.1 ∧ 0 ≤ p.2 then g.get_value p.1.toNat p.2.toNat else false

/-- The bounds oracle of `GridVisibility2d::visibility` (line 142). -/
def SampleGrid.bndOracle (g : SampleGrid) (p : ℤ × ℤ) : Bool :=
  if 0 ≤ p.1 ∧ 0 ≤ p.2 then g.bounds_check p.1.toNat p.2.toNat else false

/-- `GridVisibility2d::visibility` (src/domains/mod.rs lines 135-145). -/
def SampleGrid.visibility (g : SampleGrid) (x y : ℕ) (radius : ℕ) : Mat Bool :=
  raycast_matrix (x : ℤ) (y : ℤ) radius g.visOracle g.bndOracle

/-- `SampleGrid2d::update_node` (lines 204-207): Kalman-update the cell
with the ground-truth bit as measurement. -/
def SampleGrid.update_node (g : SampleGrid) (x y : ℕ) (mcov : ℚ) : SampleGrid :=
  { g with
    sample := fun a b =>
      if a = x ∧ b = y then
        (g.sample x y).update (if g.groundTruth x y then 1 else 0) mcov
      else g.sample a b }

/-- `SampleGrid2d::adjacency_kernel` (lines 211-225): lift the kernel to
`Option`, then force the center and its four neighbors (in kernel
coordinates, with saturating index arithmetic) to `Some(0.0)`.  All five
writes store the same value, so the write order is irrelevant. -/
def adjacency_kernel (k : Mat ℚ) : Mat (Option ℚ) :=
  { width := k.width
    height := k.height
    entry := fun a b =>
      let dx := k.width / 2
      let dy := k.height / 2
      if (a = dx ∧ b = dy) ∨ (a = dx - 1 ∧ b = dy) ∨ (a = dx ∧ b = dy - 1) ∨
          (a = dx + 1 ∧ b = dy) ∨ (a = dx ∧ b = dy + 1) then
        some 0
      else some (k.entry a b) }

/-- `matrix_overlay` (src/util/matrix.rs lines 145-163): kernel offsets
`(i, j)` paired with the world cell `(x + i - cx, y + j - cy)` when the
subtraction does not underflow and the world cell is inside the matrix. -/
def matrix_overlay (mw mh kw kh x y : ℕ) : List ((ℕ × ℕ) × (ℕ × ℕ)) :=
  ((List.range kw).flatMap fun i => (List.range kh).map fun j => (i, j)).filterMap
    fun ij =>
      let cx := kw / 2
      let cy := kh / 2
      if x + ij.1 < cx ∨ y + ij.2 < cy then none
      else if x + ij.1 - cx < mw ∧ y + ij.2 - cy < mh then
        some ((x + ij.1 - cx, y + ij.2 - cy), ij)
      else none

/-- One iteration of the `update_kernel` loop: if the kernel entry
`kernel[j][i]` is `Some(rv)`, update the world cell with measurement
covariance `rv`. -/
def updStep (k : Mat (Option ℚ)) (acc : SampleGrid) (e : (ℕ × ℕ) × (ℕ × ℕ)) :
    SampleGrid :=
  match k.entry e.2.2 e.2.1 with
  | some rv => acc.update_node e.1.1 e.1.2 rv
  | none => acc

/-- `SampleGrid2d::update_kernel` (lines 228-234). -/
def SampleGrid.update_kernel (g : SampleGrid) (x y : ℕ) (k : Mat (Option ℚ)) :
    SampleGrid :=
  (matrix_overlay g.width g.height k.width k.height x y).foldl (updStep k) g

/-- `SampleGrid2d::raycast_update` (lines 237-246): build the adjacency
kernel, compute visibility at radius `width/2`, erase the entries whose
visibility bit is `false` (the zip pairs equal data indices, i.e. equal
row/column pairs for matrices of equal dimensions), then apply
`update_kernel`. -/
def SampleGrid.raycast_update (g : SampleGrid) (x y : ℕ) (k : Mat ℚ) : SampleGrid :=
  let adj := adjacency_kernel k
  let visM := g.visibility x y (k.width / 2)
  let masked : Mat (Option ℚ) :=
    { width := adj.width
      height := adj.height
      entry := fun a b => if visM.entry a b then adj.entry a b else none }
  g.update_kernel x y masked

/- ------------------------------------------------------------------ -/
/- Lazy sampling (sample_adjacenct), from                              -/
/- src/domains/samplegrids/samplegrid2d.rs and src/domains/mod.rs      -/
/- ------------------------------------------------------------------ -/

/-- `usize` arithmetic wraps at `2^64`. -/
def usizeSize : ℕ := 2 ^ 64

/-- `x.wrapping_add(1)`. -/
def wrapAdd1 (x : ℕ) : ℕ := (x + 1) % usizeSize

/-- `x.wrapping_sub(1)`. -/
def wrapSub1 (x : ℕ) : ℕ := (x + (usizeSize - 1)) % usizeSize

/-- `neighbors` (src/domains/mod.rs lines 148-164): the four wrapping
4-neighbors, plus the diagonals when requested. -/
def neighbors (x y : ℕ) (diagonal : Bool) : List (ℕ × ℕ) :=
  [(wrapAdd1 x, y), (x, wrapAdd1 y), (wrapSub1 x, y), (x, wrapSub1 y)] ++
    (if diagonal then
      [(wrapAdd1 x, wrapAdd1 y), (wrapSub1 x, wrapAdd1 y),
       (wrapAdd1 x, wrapSub1 y), (wrapSub1 x, wrapSub1 y)]
    else [])

/-- The per-rollout scratch state: the `sampled` bitmap (`gridmap`), the
`sampled_before` bitmap, and the position in the rollout's RNG stream. -/
structure RolloutScratch where
  gridmap : ℕ → ℕ → Bool
  before : ℕ → ℕ → Bool
  rngIdx : ℕ

/-- Reading a scratch bit-packed grid.  The scratch grids are created
`W × H` all-false and are only ever written at in-bounds cells, and the
2-cell padding of `BitPackedGrid2d` makes every out-of-bounds read (in
particular at `usize`-wrapped coordinates, which land in a padding
column or row that is never written) return `false`. -/
def scratchGet (W H : ℕ) (f : ℕ → ℕ → Bool) (x y : ℕ) : Bool :=
  decide (x < W) && decide (y < H) && f x y

/-- `SampleGrid2d::sample_cached` (lines 146-151): draw a Bernoulli value
for the cell and write it into the `sampled` bitmap.  The `&&` of the
source short-circuits, so the RNG is consumed only when the belief state
is non-zero. -/
def sample_cached (g : SampleGrid) (rng : ℕ → ℚ) (σ : RolloutScratch) (x y : ℕ) :
    Bool × RolloutScratch :=
  if (g.sample x y).state ≠ 0 then
    let value := decide (rng σ.rngIdx < (g.sample x y).state)
    (value,
      { σ with
        gridmap := fun a b => if a = x ∧ b = y then value else σ.gridmap a b
        rngIdx := σ.rngIdx + 1 })
  else
    (false, { σ with gridmap := fun a b => if a = x ∧ b = y then false else σ.gridmap a b })

/-- One neighbor of the `sample_adjacenct` filter (lines 274-282): an
unsampled in-bounds neighbor is marked in `sampled_before` and realized
by `sample_cached`; otherwise the stored `sampled` bit decides inclusion. -/
def sampleAdjStep (g : SampleGrid) (rng : ℕ → ℚ)
    (acc : List ((ℕ × ℕ) × ℕ) × RolloutScratch) (n : ℕ × ℕ) :
    List ((ℕ × ℕ) × ℕ) × RolloutScratch :=
  if g.bounds_check n.1 n.2 && ! scratchGet g.width g.height acc.2.before n.1 n.2 then
    let σ' := { acc.2 with
      before := fun a b => if a = n.1 ∧ b = n.2 then true else acc.2.before a b }
    let vσ := sample_cached g rng σ' n.1 n.2
    (if vσ.1 then acc.1 ++ [(n, 1)] else acc.1, vσ.2)
  else
    (if scratchGet g.width g.height acc.2.gridmap n.1 n.2 then acc.1 ++ [(n, 1)] else acc.1,
      acc.2)

/-- `SampleGrid2d::sample_adjacenct` (lines 267-285): filter the four
wrapping neighbors through the lazy-sampling step, pairing each included
neighbor with edge cost 1. -/
def sample_adjacenct (g : SampleGrid) (rng : ℕ → ℚ) (σ : RolloutScratch) (x y : ℕ) :
    List ((ℕ × ℕ) × ℕ) × RolloutScratch :=
  (neighbors x y false).foldl (sampleAdjStep g rng) ([], σ)

/-- Thread a sequence of `sample_adjacenct` calls (one rollout's expander
invocations) through the scratch state. -/
def sampleCalls (g : SampleGrid) (rng : ℕ → ℚ) (cs : List (ℕ × ℕ))
    (σ : RolloutScratch) : RolloutScratch :=
  cs.foldl (fun σ c => (sample_adjacenct g rng σ c.1 c.2).2) σ

/- ------------------------------------------------------------------ -/
/- SampleStar stepping, from src/search/samplestar.rs                  -/
/- ------------------------------------------------------------------ -/

/-- `SampleGrid2d::adjacent` (samplegrid2d.rs lines 56-59): the wrapping
4-neighbors (plus diagonals when requested) filtered by the bounds check. -/
def SampleGrid.adjacent (g : SampleGrid) (x y : ℕ) (diagonal : Bool) :
    List (ℕ × ℕ) :=
  (neighbors x y diagonal).filter fun n => g.bounds_check n.1 n.2

/-- Two cells are equal or 4-adjacent (their Manhattan distance is 1). -/
def adjEq (a b : ℕ × ℕ) : Bool :=
  decide (a = b) ||
    decide ((((a.1 : ℤ) - b.1).natAbs + ((a.2 : ℤ) - b.2).natAbs) = 1)

/-- The part of the `SampleStar` state that `step` reads and writes and
that claim-relevant invariants speak about. -/
structure SampleStarState where
  previous : ℕ × ℕ
  current : ℕ × ℕ
  final_path : List (ℕ × ℕ)

/-- `SampleStar::new` (lines 52-78): `previous = current = start`,
`final_path = vec![start]` (the constructor asserts that `start` and
`goal` are in bounds, which the theorems carry as hypotheses). -/
def sampleStarNew (start : ℕ × ℕ) : SampleStarState :=
  { previous := start, current := start, final_path := [start] }

/-- The bump mechanics at the end of `SampleStar::step` (lines 148-150):
if the ground-truth grid (a `BitPackedGrid2d`, whose padding makes every
out-of-bounds read `false`) is blocked at the chosen cell, fall back to
`previous` (which `step` has just set to the old `current`). -/
def sampleStarBump (g : SampleGrid) (prev c : ℕ × ℕ) : ℕ × ℕ :=
  if scratchGet g.width g.height g.groundTruth c.1 c.2 then c else prev

/-- `SampleStar::step` (lines 82-153) restricted to the fields of
`SampleStarState`: return `true` immediately when `current = goal`;
otherwise set `previous := current`, move `current` to
`path_store.next_node(adj).unwrap_or(current)` — the store consulted in
this step is abstracted into the function `f`, which returns the chosen
node among the in-bounds adjacent cells or `None` — apply the bump
mechanics, push the new `current` onto `final_path`, and return `false`.
The sampling rollouts mutate only the belief grid and the stores, none
of which `SampleStarState` tracks, so they are not modelled here. -/
def sampleStarStep (g : SampleGrid) (goal : ℕ × ℕ)
    (f : List (ℕ × ℕ) → Option (ℕ × ℕ)) (s : SampleStarState) :
    Bool × SampleStarState :=
  if s.current = goal then (true, s)
  else
    (false,
      { previous := s.current
        current := sampleStarBump g s.current
          ((f (g.adjacent s.current.1 s.current.2 false)).getD s.current)
        final_path := s.final_path ++
          [sampleStarBump g s.current
            ((f (g.adjacent s.current.1 s.current.2 false)).getD s.current)] })

/-- Any number of `step` calls, each consulting its own path-store
query function. -/
def sampleStarRun (g : SampleGrid) (goal : ℕ × ℕ)
    (fs : List (List (ℕ × ℕ) → Option (ℕ × ℕ))) (s : SampleStarState) :
    SampleStarState :=
  fs.foldl (fun s f => (sampleStarStep g goal f s).2) s

/-- A tiny concrete sampling grid (1 x 1, all ground-truth true) used to
instantiate theorems at concrete inputs. -/
def sampleStarWitnessGrid : SampleGrid :=
  { width := 1
    height := 1
    sample := fun _ _ => KalmanNode.default
    groundTruth := fun _ _ => true }

/- ------------------------------------------------------------------ -/
/- A-Star and best_search, from src/search/astar.rs and search/mod.rs  -/
/- ------------------------------------------------------------------ -/

/-- `SearchNode` (src/search/mod.rs lines 129-133) without the random
tie-breaking key: the binary heap pops a node of minimal `cost`; the
model's `popMin` takes the leftmost minimal entry, one of the orders the
random keys can induce. -/
structure SearchNode (N : Type) where
  node : N
  cost : ℕ
  deriving Repr, DecidableEq

/-- The `AHashMap<N, (Option<N>, C)>` of `_search`, as an association
list with unique keys (`insert` overwrites). -/
abbrev SearchMap (N : Type) : Type := List (N × (Option N × ℕ))

/-- `AHashMap::get`. -/
def lookupA [DecidableEq N] (m : SearchMap N) (k : N) : Option (Option N × ℕ) :=
  (List.find? (fun e => decide (e.1 = k)) m).map Prod.snd

/-- `AHashMap::insert`: overwrite the binding of `k`. -/
def insertA [DecidableEq N] (m : SearchMap N) (k : N) (v : Option N × ℕ) :
    SearchMap N :=
  (k, v) :: List.filter (fun e => ! decide (e.1 = k)) m

/-- `BinaryHeap::pop`: remove an entry of minimal cost (leftmost among
equals). -/
def popMin : List (SearchNode N) → Option (SearchNode N × List (SearchNode N))
  | [] => none
  | x :: xs =>
    match popMin xs with
    | none => some (x, [])
    | some (m, rest) => if x.cost ≤ m.cost then some (x, xs) else some (m, x :: rest)

/-- The body of the `for (child, cost) in expander(&node)` loop of
`AStar::_search` (astar.rs lines 70-80): `new_cost = previous[&node].1 +
cost`; relax when the child is unmapped or strictly improved; the parent
map is read afresh at every iteration, and the expanded `node` is always
mapped (the `getD` default is never read). -/
def relaxChild [DecidableEq N] (h : N → ℕ) (node : N)
    (acc : SearchMap N × List (SearchNode N)) (cc : N × ℕ) :
    SearchMap N × List (SearchNode N) :=
  let new_cost := ((lookupA acc.1 node).getD (none, 0)).2 + cc.2
  match lookupA acc.1 cc.1 with
  | none =>
    (insertA acc.1 cc.1 (some node, new_cost),
      acc.2 ++ [⟨cc.1, new_cost + h cc.1⟩])
  | some old =>
    if new_cost < old.2 then
      (insertA acc.1 cc.1 (some node, new_cost),
        acc.2 ++ [⟨cc.1, new_cost + h cc.1⟩])
    else acc

/-- The `while let Some(SearchNode { node, .. }) = open.pop()` loop of
`AStar::_search` (astar.rs lines 66-81), with explicit fuel; `none`
means the fuel ran out before the loop finished (the Rust loop has no
such case; theorems quantify over sufficient fuel). -/
def astarLoop [DecidableEq N] (h : N → ℕ) (exp : N → List (N × ℕ))
    (goalp : N → Bool) :
    ℕ → SearchMap N × List (SearchNode N) → Option (SearchMap N × Option N)
  | 0, _ => none
  | fuel + 1, (m, ol) =>
    match popMin ol with
    | none => some (m, none)
    | some (sn, rest) =>
      if goalp sn.node then some (m, some sn.node)
      else
        astarLoop h exp goalp fuel
          ((exp sn.node).foldl (relaxChild h sn.node) (m, rest))

/-- `AStar::_search` (astar.rs lines 47-83): heap seeded with the start
at cost `h start`, parent map seeded with `start -> (None, C::default())`. -/
def astar_search [DecidableEq N] (h : N → ℕ) (exp : N → List (N × ℕ))
    (goalp : N → Bool) (start : N) (fuel : ℕ) :
    Option (SearchMap N × Option N) :=
  astarLoop h exp goalp fuel ([(start, (none, 0))], [⟨start, h start⟩])

/-- The `while let Some((Some(prev), _)) = parent.get(&node)` loop of
`reconstruct_path` (search/mod.rs lines 117-123), with fuel, returning
the already-reversed path. -/
def reconstructLoop [DecidableEq N] (m : SearchMap N) :
    ℕ → N → Option (List N)
  | 0, _ => none
  | fuel + 1, node =>
    match lookupA m node with
    | some (some prev, _) =>
      (reconstructLoop m fuel prev).map (fun p => p ++ [node])
    | _ => some [node]

/-- `reconstruct_path` (search/mod.rs lines 109-125): the reversed parent
chain and the cost stored at the queried node (`parent[&node]` panics —
`none` — when the node is unmapped). -/
def reconstruct_path [DecidableEq N] (m : SearchMap N) (fuel : ℕ) (node : N) :
    Option (List N × ℕ) :=
  match lookupA m node, reconstructLoop m fuel node with
  | some pv, some p => some (p, pv.2)
  | _, _ => none

/-- `Iterator::min_by_key`: an element with minimal key, the first among
equals. -/
def minByKey : List (α × ℕ) → Option (α × ℕ)
  | [] => none
  | x :: xs =>
    match minByKey xs with
    | none => some x
    | some m => if x.2 ≤ m.2 then some x else some m

/-- `BestSearch::best_search` (search/mod.rs lines 73-94): reconstruct
from the goal when `_search` found one; otherwise keep the mapped nodes
whose parent is `Some`, take one minimising the best-heuristic, and
reconstruct from it.  The `.unwrap()` of the source panics when that
filtered collection is empty, which the model returns as `none`. -/
def best_search [DecidableEq N] (h hb : N → ℕ) (exp : N → List (N × ℕ))
    (goalp : N → Bool) (start : N) (fuel rfuel : ℕ) : Option (List N × ℕ) :=
  match astar_search h exp goalp start fuel with
  | none => none
  | some (distances, some g) => reconstruct_path distances rfuel g
  | some (distances, none) =>
    match minByKey (distances.filterMap fun e =>
        match e.2.1 with
        | some _ => some (e.1, hb e.1)
        | none => none) with
    | none => none
    | some (bn, c) =>
      (reconstructLoop distances rfuel bn).map fun p => (p, c)

/- ------------------------------------------------------------------ -/
/- Graph paths and A-Star loop invariants                              -/
/- ------------------------------------------------------------------ -/

/-- A path in the graph described by the expander: `CostedPath exp a p z c`
says `p` lists the nodes of a walk from `a` to `z` whose edges are produced
by `exp` and whose edge costs sum to `c`. -/
inductive CostedPath (e : N → List (N × ℕ)) : N → List N → N → ℕ → Prop
  | single (a : N) : CostedPath e a [a] a 0
  | cons (a b z : N) (w c : ℕ) (p : List N) :
      (b, w) ∈ e a → CostedPath e b p z c → CostedPath e a (a :: p) z (w + c)

/-- The start keeps cost `0` in the parent map. -/
def startZero [DecidableEq N] (start : N) (m : SearchMap N) : Prop :=
  ∃ par, lookupA m start = some (par, 0)

/-- Every stored cost is realised by an actual path from the start. -/
def gSound [DecidableEq N] (e : N → List (N × ℕ)) (start : N)
    (m : SearchMap N) : Prop :=
  ∀ n pv, lookupA m n = some pv → ∃ q, CostedPath e start q n pv.2

/-- Every heap entry's key is at least the current `g + h` of its node. -/
def heapGE [DecidableEq N] (h : N → ℕ) (m : SearchMap N)
    (ol : List (SearchNode N)) : Prop :=
  ∀ sn ∈ ol, ∃ pv, lookupA m sn.node = some pv ∧ pv.2 + h sn.node ≤ sn.cost

/-- Every mapped node either still has an open entry at key `≤ g + h`, or
all its out-edges are relaxed at its current `g`. -/
def relaxInv [DecidableEq N] (h : N → ℕ) (e : N → List (N × ℕ))
    (m : SearchMap N) (ol : List (SearchNode N)) : Prop :=
  ∀ n pv, lookupA m n = some pv →
    (∃ sn ∈ ol, sn.node = n ∧ sn.cost ≤ pv.2 + h n) ∨
    (∀ cw ∈ e n, ∃ cv, lookupA m cw.1 = some cv ∧ cv.2 ≤ pv.2 + cw.2)

/-- Like `relaxInv`, but the node `u` currently being expanded is only
required to have relaxed the children in `done`. -/
def relaxPartial [DecidableEq N] (h : N → ℕ) (e : N → List (N × ℕ))
    (m : SearchMap N) (ol : List (SearchNode N)) (u : N)
    (done : List (N × ℕ)) : Prop :=
  ∀ n pv, lookupA m n = some pv →
    (∃ sn ∈ ol, sn.node = n ∧ sn.cost ≤ pv.2 + h n) ∨
    (∀ cw ∈ e n, ∃ cv, lookupA m cw.1 = some cv ∧ cv.2 ≤ pv.2 + cw.2) ∨
    (n = u ∧ ∀ cw ∈ done, ∃ cv, lookupA m cw.1 = some cv ∧ cv.2 ≤ pv.2 + cw.2)

/-- Mapped goal nodes always keep an open entry (a popped goal ends the
loop, so a goal node is never expanded). -/
def goalsOpen [DecidableEq N] (h : N → ℕ) (goalp : N → Bool)
    (m : SearchMap N) (ol : List (SearchNode N)) : Prop :=
  ∀ n pv, lookupA m n = some pv → goalp n = true →
    ∃ sn ∈ ol, sn.node = n ∧ sn.cost ≤ pv.2 + h n

/-- Every stored parent edge is a graph edge whose endpoints' costs are
compatible, and parent chains strictly descend in the lexicographic
measure (cost, stamp) for some stamp function — so they are acyclic. -/
def parentEdge [DecidableEq N] (e : N → List (N × ℕ)) (m : SearchMap N) :
    Prop :=
  ∃ s : N → ℕ, ∀ n p cn, lookupA m n = some (some p, cn) →
    ∃ w pv, (n, w) ∈ e p ∧ lookupA m p = some pv ∧ pv.2 + w ≤ cn ∧
      (pv.2 < cn ∨ (pv.2 = cn ∧ s p < s n))

/-- All mapped keys and heap nodes lie in the finite universe `nodes`. -/
def keysIn [DecidableEq N] (nodes : List N) (m : SearchMap N)
    (ol : List (SearchNode N)) : Prop :=
  (∀ n pv, lookupA m n = some pv → n ∈ nodes) ∧ ∀ sn ∈ ol, sn.node ∈ nodes

/-- The number of universe nodes not yet in the parent map. -/
def unmappedCount [DecidableEq N] (nodes : List N) (m : SearchMap N) : ℕ :=
  (nodes.dedup.filter fun n => ! (lookupA m n).isSome).length

/-- The sum of the stored costs over the universe. -/
def sumG [DecidableEq N] (nodes : List N) (m : SearchMap N) : ℕ :=
  (nodes.dedup.map fun n => ((lookupA m n).getD (none, 0)).2).sum

/-- Strict decrease of the termination measure on parent maps. -/
def measureLt [DecidableEq N] (nodes : List N) (m2 m : SearchMap N) : Prop :=
  unmappedCount nodes m2 < unmappedCount nodes m ∨
    (unmappedCount nodes m2 = unmappedCount nodes m ∧
      sumG nodes m2 < sumG nodes m)

/-- The loop invariants of `_search` that do not mention the node being
expanded: start cost `0`, realisable costs, heap keys dominate `g + h`,
open goals, acyclic rooted parent edges, and containment in the universe. -/
def astarBundle [DecidableEq N] (h : N → ℕ) (e : N → List (N × ℕ))
    (goalp : N → Bool) (start : N) (nodes : List N) (m : SearchMap N)
    (ol : List (SearchNode N)) : Prop :=
  startZero start m ∧ gSound e start m ∧ heapGE h m ol ∧
    goalsOpen h goalp m ol ∧ parentEdge e m ∧ keysIn nodes m ol

/- ------------------------------------------------------------------ -/
/- Theorems                                                           -/
/- ------------------------------------------------------------------ -/

theorem kalmanEps_eq : kalmanEps = 1 / 1000000 := by
  rw [kalmanEps, Rat.mkRat_eq_div]
  norm_num

theorem nearestThreshold_eq : nearestThreshold = 1 / 2 := by
  rw [nearestThreshold, Rat.mkRat_eq_div]
  norm_num

theorem kalmanEps_pos : 0 < kalmanEps := by
  rw [kalmanEps_eq]
  norm_num

theorem kalman_gain_one (n : KalmanNode) (h : kalmanEps ≤ n.covariance) :
    n.covariance / max (n.covariance + 0) kalmanEps = 1 := by
  have hpos : 0 < n.covariance := lt_of_lt_of_le kalmanEps_pos h
  rw [add_zero, max_eq_left h, div_self (ne_of_gt hpos)]

/-- C7 (amended): a Kalman update with measurement covariance `r = 0` pins
the state to the measurement and the covariance to `0` provided the prior
covariance is at least the floor `1e-6`.  (With covariance `0` the gain is
`0 / 1e-6 = 0` and the state is unchanged; see the counterexample.) -/
theorem kalman_update_r0_pins (n : KalmanNode) (z : ℚ)
    (hcov : kalmanEps ≤ n.covariance) :
    (n.update z 0).state = z ∧ (n.update z 0).covariance = 0 := by
  unfold KalmanNode.update
  rw [kalman_gain_one n hcov]
  constructor
  · ring_nf
  · ring_nf

/-- Witness for C7's amended theorem at `state = 1/2`, `cov = 1`, `z = 1`. -/
theorem kalman_update_r0_pins_witness :
    kalmanEps ≤ (⟨1/2, 1⟩ : KalmanNode).covariance ∧
      ((⟨1/2, 1⟩ : KalmanNode).update 1 0).state = 1 ∧
      ((⟨1/2, 1⟩ : KalmanNode).update 1 0).covariance = 0 :=
  ⟨by decide, kalman_update_r0_pins ⟨1/2, 1⟩ 1 (by decide)⟩

/-- C7 counterexample: with prior covariance `0` (any state in `[0,1]`),
an update with `r = 0` leaves the state unchanged instead of setting it to
the measurement: here state `1/2`, measurement `1`. -/
theorem kalman_update_r0_cov0_not_pinned :
    ((⟨1/2, 0⟩ : KalmanNode).update 1 0).state ≠ 1 := by
  norm_num [KalmanNode.update, kalmanEps_eq]

/-- C8 (amended): `BitPackedGrid2d::new((W, H))` computes physical width
`(W / 64 + 1) * 64` (not `ceil((W+2)/64) * 64`; the two differ exactly when
`W ≡ 63 (mod 64)`), physical height `H + 4`, and a backing array of
`Wp * Hp / 64` words. -/
theorem bitPackedNew_dims (width height : ℕ) :
    (bitPackedNew width height).mapWidth = (width / 64 + 1) * 64 ∧
    (bitPackedNew width height).mapHeight = height + 4 ∧
    (bitPackedNew width height).cellsLen =
      ((width / 64 + 1) * 64 * (height + 4)) / 64 := by
  refine ⟨?_, ?_, ?_⟩ <;>
    simp only [bitPackedNew, bpPadding, bpLog2BitsPerWord, Nat.shiftRight_eq_div_pow,
      Nat.shiftLeft_eq]

/-- C8 counterexample: at logical width `W = 63` the code produces physical
width `64`, while the spec formula `ceil((63+2)/64) * 64` gives `128`. -/
theorem bitPackedNew_width_ne_spec :
    (bitPackedNew 63 5).mapWidth ≠ specMapWidth 63 := by decide

/-- C10 (confirmed): `GreedyStore::get` ignores the queried node, and after
any sequence of `add_path`/`reinitialize` operations it returns the
heuristic value of the first cell of the most recently added non-empty path
(`none` when no non-empty path was added since the last reinitialize, in
particular when nothing was added at all). -/
theorem greedyStore_get_spec (h : N → W) (ops : List (GreedyOp N)) (n m : N) :
    (greedyRun h ops).get n = (greedyRun h ops).get m ∧
    (greedyRun h ops).get n = Option.map h (lastNonEmptyHead ops) := by
  refine ⟨rfl, ?_⟩
  suffices H : ∀ (st : GreedyStore N W) (acc : Option N),
      st.weight = Option.map h acc →
      (ops.foldl (greedyApply h) st).weight =
        Option.map h (ops.foldl greedySpecStep acc) by
    exact H (GreedyStore.new N W) none rfl
  intro st acc hst
  induction ops generalizing st acc with
  | nil => exact hst
  | cons op rest ih =>
    simp only [List.foldl_cons]
    cases op with
    | reinit =>
      exact ih _ none rfl
    | addPath p =>
      cases hp : p.head? with
      | none =>
        simp only [greedySpecStep, hp]
        refine ih _ acc ?_
        simp [greedyApply, GreedyStore.add_path, hp, hst]
      | some a =>
        simp only [greedySpecStep, hp]
        refine ih _ (some a) ?_
        simp [greedyApply, GreedyStore.add_path, hp]

/- Bresenham lemmas (claim C5). -/

theorem bresLoopT_length (steep : Bool) (sign dx dy ystep : ℤ) :
    ∀ (n : ℕ) (x y e : ℤ),
      (bresLoop steep sign dx dy ystep (fun _ => true) (fun _ => true) n x y e).length = n := by
  intro n
  induction n with
  | zero => intro x y e; rfl
  | succ n ih =>
    intro x y e
    simp only [bresLoop, if_true]
    split
    · simp [ih]
    · simp [ih]

theorem bresLoopT_head (steep : Bool) (sign dx dy ystep : ℤ) (n : ℕ) (x y e : ℤ) :
    (bresLoop steep sign dx dy ystep (fun _ => true) (fun _ => true) (n + 1) x y e).head? =
      some (bresPoint steep sign x y) := by
  simp only [bresLoop, if_true]
  split <;> simp

theorem bresPoint_adj (steep : Bool) (sign ystep : ℤ)
    (hsign : sign = 1 ∨ sign = -1) (hystep : ystep = 1 ∨ ystep = -1)
    (x y y' : ℤ) (hy : y' = y ∨ y' = y + ystep) :
    bresStepAdj (bresPoint steep sign x y) (bresPoint steep sign (x + 1) y') := by
  rcases hsign with hs | hs <;> rcases hystep with ht | ht <;>
    rcases hy with hy | hy <;> subst hs <;> subst ht <;> subst hy <;>
    cases steep <;> simp [bresPoint, bresStepAdj] <;> omega

theorem bresLoopT_chain (steep : Bool) (sign dx dy ystep : ℤ)
    (hsign : sign = 1 ∨ sign = -1) (hystep : ystep = 1 ∨ ystep = -1) :
    ∀ (n : ℕ) (x y e : ℤ),
      List.Chain' bresStepAdj
        (bresLoop steep sign dx dy ystep (fun _ => true) (fun _ => true) n x y e) := by
  intro n
  induction n with
  | zero => intro x y e; exact List.chain'_nil
  | succ n ih =>
    intro x y e
    simp only [bresLoop, if_true]
    split
    · refine List.chain'_cons'.mpr ⟨?_, ih _ _ _⟩
      intro q hq
      cases n with
      | zero => simp [bresLoop] at hq
      | succ m =>
        rw [bresLoopT_head] at hq
        cases hq
        exact bresPoint_adj steep sign ystep hsign hystep x y _ (Or.inr rfl)
    · refine List.chain'_cons'.mpr ⟨?_, ih _ _ _⟩
      intro q hq
      cases n with
      | zero => simp [bresLoop] at hq
      | succ m =>
        rw [bresLoopT_head] at hq
        cases hq
        exact bresPoint_adj steep sign ystep hsign hystep x y _ (Or.inl rfl)

theorem bresYFinal_eq_borrow (dx dy ystep : ℤ) :
    ∀ (n : ℕ) (y e : ℤ),
      bresYFinal dx dy ystep n y e = y + ystep * bresBorrow dx dy n e := by
  intro n
  induction n with
  | zero => intro y e; simp [bresYFinal, bresBorrow]
  | succ n ih =>
    intro y e
    simp only [bresYFinal, bresBorrow]
    split
    · rw [ih]; ring
    · rw [ih]

theorem bresLoopT_succ (steep : Bool) (sign dx dy ystep : ℤ) (n : ℕ) (x y e : ℤ) :
    bresLoop steep sign dx dy ystep (fun _ => true) (fun _ => true) (n + 1) x y e =
      bresPoint steep sign x y ::
        (if e - dy < 0 then
          bresLoop steep sign dx dy ystep (fun _ => true) (fun _ => true)
            n (x + 1) (y + ystep) (e - dy + dx)
        else
          bresLoop steep sign dx dy ystep (fun _ => true) (fun _ => true)
            n (x + 1) y (e - dy)) := by
  simp only [bresLoop]
  by_cases he : e - dy < 0
  · simp [he]
  · simp [he]

theorem bresLoopT_last (steep : Bool) (sign dx dy ystep : ℤ) :
    ∀ (n : ℕ) (x y e : ℤ),
      (bresLoop steep sign dx dy ystep (fun _ => true) (fun _ => true) (n + 1) x y e).getLast? =
        some (bresPoint steep sign (x + n) (bresYFinal dx dy ystep n y e)) := by
  intro n
  induction n with
  | zero =>
    intro x y e
    simp only [bresLoop, if_true]
    split <;> simp [bresYFinal]
  | succ n ih =>
    intro x y e
    rw [bresLoopT_succ]
    by_cases he : e - dy < 0
    · rw [if_pos he, bresLoopT_succ, List.getLast?_cons_cons, ← bresLoopT_succ, ih]
      simp only [bresYFinal, if_pos he]
      congr 2
      push_cast
      ring
    · rw [if_neg he, bresLoopT_succ, List.getLast?_cons_cons, ← bresLoopT_succ, ih]
      simp only [bresYFinal, if_neg he]
      congr 2
      push_cast
      ring

theorem bresBorrow_sandwich (dx dy : ℤ) (hdy : 0 ≤ dy) (hdydx : dy ≤ dx) :
    ∀ (n : ℕ) (e : ℤ), 0 ≤ e → e < dx →
      bresBorrow dx dy n e * dx ≤ n * dy + (dx - 1 - e) ∧
        n * dy + (dx - 1 - e) < (bresBorrow dx dy n e + 1) * dx := by
  intro n
  induction n with
  | zero =>
    intro e he0 hedx
    simp only [bresBorrow, Nat.cast_zero, zero_mul, one_mul, zero_add]
    omega
  | succ n ih =>
    intro e he0 hedx
    simp only [bresBorrow, Nat.cast_succ]
    split
    · rename_i he
      have h := ih (e - dy + dx) (by omega) (by omega)
      constructor <;> nlinarith [h.1, h.2]
    · rename_i he
      have h := ih (e - dy) (by omega) (by omega)
      constructor <;> nlinarith [h.1, h.2]

theorem bresBorrow_total (dx dy : ℤ) (hdy : 0 ≤ dy) (hdydx : dy ≤ dx) (hdx : 1 ≤ dx) :
    bresBorrow dx dy dx.toNat (dx / 2) = dy := by
  have hcast : ((dx.toNat : ℤ)) = dx := by omega
  have he0 : (0 : ℤ) ≤ dx / 2 := by omega
  have hedx : dx / 2 < dx := by omega
  have h := bresBorrow_sandwich dx dy hdy hdydx dx.toNat (dx / 2) he0 hedx
  rw [hcast] at h
  have hdxpos : (0 : ℤ) < dx := by omega
  set b := bresBorrow dx dy dx.toNat (dx / 2) with hb
  have hble : b ≤ dy := by
    have h1 : b * dx < (dy + 1) * dx := by nlinarith [h.1]
    have := (mul_lt_mul_right hdxpos).mp h1
    omega
  have hdyle : dy ≤ b := by
    have h2 : dy * dx < (b + 1) * dx := by nlinarith [h.2]
    have := (mul_lt_mul_right hdxpos).mp h2
    omega
  omega

theorem bres_core (steep : Bool) (sign ystep X0 Y0 X1 Y1 : ℤ)
    (hsign : sign = 1 ∨ sign = -1) (hystep : ystep = 1 ∨ ystep = -1)
    (hx : X0 ≤ X1) (hdy : ((Y1 - Y0).natAbs : ℤ) ≤ X1 - X0)
    (hy : Y0 + ystep * ((Y1 - Y0).natAbs : ℤ) = Y1) :
    (bresLoop steep sign (X1 - X0) ((Y1 - Y0).natAbs : ℤ) ystep (fun _ => true) (fun _ => true)
        (X1 - X0 + 1).toNat X0 Y0 ((X1 - X0) / 2)).head? = some (bresPoint steep sign X0 Y0) ∧
    (bresLoop steep sign (X1 - X0) ((Y1 - Y0).natAbs : ℤ) ystep (fun _ => true) (fun _ => true)
        (X1 - X0 + 1).toNat X0 Y0 ((X1 - X0) / 2)).getLast? = some (bresPoint steep sign X1 Y1) ∧
    List.Chain' bresStepAdj
      (bresLoop steep sign (X1 - X0) ((Y1 - Y0).natAbs : ℤ) ystep (fun _ => true) (fun _ => true)
        (X1 - X0 + 1).toNat X0 Y0 ((X1 - X0) / 2)) ∧
    (bresLoop steep sign (X1 - X0) ((Y1 - Y0).natAbs : ℤ) ystep (fun _ => true) (fun _ => true)
        (X1 - X0 + 1).toNat X0 Y0 ((X1 - X0) / 2)).length = (X1 - X0).toNat + 1 := by
  have hn : (X1 - X0 + 1).toNat = (X1 - X0).toNat + 1 := by omega
  rw [hn]
  refine ⟨bresLoopT_head _ _ _ _ _ _ _ _ _, ?_, bresLoopT_chain _ _ _ _ _ hsign hystep _ _ _ _,
    bresLoopT_length _ _ _ _ _ _ _ _ _⟩
  rw [bresLoopT_last]
  congr 1
  have hxfin : X0 + ((X1 - X0).toNat : ℤ) = X1 := by omega
  rw [bresYFinal_eq_borrow]
  by_cases hdx0 : X1 - X0 = 0
  · have habs : ((Y1 - Y0).natAbs : ℤ) = 0 := by omega
    have hnat : (X1 - X0).toNat = 0 := by omega
    rw [hnat]
    simp only [bresBorrow, mul_zero, add_zero, Nat.cast_zero]
    have hX : X0 = X1 := by omega
    have hY : Y0 = Y1 := by omega
    rw [hX, hY]
  · have hdx1 : 1 ≤ X1 - X0 := by omega
    have htot := bresBorrow_total (X1 - X0) ((Y1 - Y0).natAbs : ℤ) (by positivity) hdy hdx1
    rw [htot, hy, hxfin]

theorem ystep_spec (y0 y1 : ℤ) :
    y0 + (if y0 < y1 then (1 : ℤ) else -1) * (((y1 - y0).natAbs : ℤ)) = y1 := by
  split <;> omega

theorem ystep_cases (y0 y1 : ℤ) :
    (if y0 < y1 then (1 : ℤ) else -1) = 1 ∨ (if y0 < y1 then (1 : ℤ) else -1) = -1 := by
  split <;> simp

/-- C5 (confirmed): with an always-true visibility predicate and an
always-true bounds predicate, `bresenham(a, b, …)` begins with `a`, ends
with `b`, consecutive cells differ by at most 1 in each coordinate, and the
sequence has length `max(|bx−ax|, |by−ay|) + 1`. -/
theorem bresenham_full_visibility (a b : ℤ × ℤ) :
    (bresenham a b (fun _ => true) (fun _ => true)).head? = some a ∧
    (bresenham a b (fun _ => true) (fun _ => true)).getLast? = some b ∧
    List.Chain' bresStepAdj (bresenham a b (fun _ => true) (fun _ => true)) ∧
    (bresenham a b (fun _ => true) (fun _ => true)).length =
      max (b.1 - a.1).natAbs (b.2 - a.2).natAbs + 1 := by
  obtain ⟨ax, ay⟩ := a
  obtain ⟨bx, b2⟩ := b
  simp only [bresenham, Int.abs_eq_natAbs, gt_iff_lt]
  by_cases hsteep : ((bx - ax).natAbs : ℤ) < ((b2 - ay).natAbs : ℤ)
  · simp only [hsteep, decide_True, if_true]
    by_cases hflip : ((b2 : ℤ) < ay)
    · simp only [hflip, decide_True, if_true]
      have hcore := bres_core true (-1) (if ax < bx then (1 : ℤ) else -1)
        (-ay) ax (-b2) bx (Or.inr rfl) (ystep_cases ax bx)
        (by omega) (by omega) (ystep_spec ax bx)
      refine ⟨?_, ?_, hcore.2.2.1, ?_⟩
      · rw [hcore.1]; simp [bresPoint]
      · rw [hcore.2.1]; simp [bresPoint]
      · rw [hcore.2.2.2]; omega
    · simp only [hflip, decide_False, Bool.false_eq_true, if_false]
      have hcore := bres_core true 1 (if ax < bx then (1 : ℤ) else -1)
        ay ax b2 bx (Or.inl rfl) (ystep_cases ax bx)
        (by omega) (by omega) (ystep_spec ax bx)
      refine ⟨?_, ?_, hcore.2.2.1, ?_⟩
      · rw [hcore.1]; simp [bresPoint]
      · rw [hcore.2.1]; simp [bresPoint]
      · rw [hcore.2.2.2]; omega
  · simp only [hsteep, decide_False, Bool.false_eq_true, if_false]
    by_cases hflip : ((bx : ℤ) < ax)
    · simp only [hflip, decide_True, if_true]
      have hcore := bres_core false (-1) (if ay < b2 then (1 : ℤ) else -1)
        (-ax) ay (-bx) b2 (Or.inr rfl) (ystep_cases ay b2)
        (by omega) (by omega) (ystep_spec ay b2)
      refine ⟨?_, ?_, hcore.2.2.1, ?_⟩
      · rw [hcore.1]; simp [bresPoint]
      · rw [hcore.2.1]; simp [bresPoint]
      · rw [hcore.2.2.2]; omega
    · simp only [hflip, decide_False, Bool.false_eq_true, if_false]
      have hcore := bres_core false 1 (if ay < b2 then (1 : ℤ) else -1)
        ax ay bx b2 (Or.inl rfl) (ystep_cases ay b2)
        (by omega) (by omega) (ystep_spec ay b2)
      refine ⟨?_, ?_, hcore.2.2.1, ?_⟩
      · rw [hcore.1]; simp [bresPoint]
      · rw [hcore.2.1]; simp [bresPoint]
      · rw [hcore.2.2.2]; omega

/- Visibility kernel lemmas (claim C9). -/

theorem bresLoopB_head_mem (vis : ℤ × ℤ → Bool) (steep : Bool) (sign dx dy ystep : ℤ)
    (n : ℕ) (x y e : ℤ) :
    bresPoint steep sign x y ∈
      bresLoop steep sign dx dy ystep vis (fun _ => true) (n + 1) x y e := by
  simp only [bresLoop]
  by_cases hv : vis (bresPoint steep sign x y) <;>
    by_cases he : e - dy < 0 <;> simp [hv, he]

theorem bresenham_self_mem (a b : ℤ × ℤ) (vis : ℤ × ℤ → Bool) :
    a ∈ bresenham a b vis (fun _ => true) := by
  obtain ⟨ax, ay⟩ := a
  obtain ⟨bx, b2⟩ := b
  simp only [bresenham, Int.abs_eq_natAbs, gt_iff_lt]
  by_cases hsteep : ((bx - ax).natAbs : ℤ) < ((b2 - ay).natAbs : ℤ)
  · simp only [hsteep, decide_True, if_true]
    by_cases hflip : ((b2 : ℤ) < ay)
    · simp only [hflip, decide_True, if_true]
      obtain ⟨m, hm⟩ : ∃ m, ((-b2 : ℤ) - -ay + 1).toNat = m + 1 :=
        ⟨((-b2 : ℤ) - -ay).toNat, by omega⟩
      rw [hm]
      simpa [bresPoint] using
        bresLoopB_head_mem vis true (-1) (-b2 - -ay) ((bx - ax).natAbs : ℤ)
          (if ax < bx then 1 else -1) m (-ay) ax ((-b2 - -ay) / 2)
    · simp only [hflip, decide_False, Bool.false_eq_true, if_false]
      obtain ⟨m, hm⟩ : ∃ m, ((b2 : ℤ) - ay + 1).toNat = m + 1 :=
        ⟨((b2 : ℤ) - ay).toNat, by omega⟩
      rw [hm]
      simpa [bresPoint] using
        bresLoopB_head_mem vis true 1 (b2 - ay) ((bx - ax).natAbs : ℤ)
          (if ax < bx then 1 else -1) m ay ax ((b2 - ay) / 2)
  · simp only [hsteep, decide_False, Bool.false_eq_true, if_false]
    by_cases hflip : ((bx : ℤ) < ax)
    · simp only [hflip, decide_True, if_true]
      obtain ⟨m, hm⟩ : ∃ m, ((-bx : ℤ) - -ax + 1).toNat = m + 1 :=
        ⟨((-bx : ℤ) - -ax).toNat, by omega⟩
      rw [hm]
      simpa [bresPoint] using
        bresLoopB_head_mem vis false (-1) (-bx - -ax) ((b2 - ay).natAbs : ℤ)
          (if ay < b2 then 1 else -1) m (-ax) ay ((-bx - -ax) / 2)
    · simp only [hflip, decide_False, Bool.false_eq_true, if_false]
      obtain ⟨m, hm⟩ : ∃ m, ((bx : ℤ) - ax + 1).toNat = m + 1 :=
        ⟨((bx : ℤ) - ax).toNat, by omega⟩
      rw [hm]
      simpa [bresPoint] using
        bresLoopB_head_mem vis false 1 (bx - ax) ((b2 - ay).natAbs : ℤ)
          (if ay < b2 then 1 else -1) m ax ay ((bx - ax) / 2)

/-- C9 (amended): for an odd kernel size `s` with radius `r = (s-1)/2`,
`raycast_matrix` always has dimensions `s × s` (hence exactly `s·s`
entries); its center entry is `true` provided `r ≥ 1` and at least one of
the `8r` perimeter anchors passes the non-negativity and bounds filter.
For `s = 1` no rays are cast and the center entry is `false` (see the
counterexample), and a bounds predicate that rejects every anchor likewise
leaves the whole matrix `false`. -/
theorem raycast_matrix_size_and_center (x y : ℤ) (s : ℕ) (vis bnd : ℤ × ℤ → Bool)
    (hodd : s % 2 = 1) :
    (raycast_matrix x y ((s - 1) / 2) vis bnd).width = s ∧
    (raycast_matrix x y ((s - 1) / 2) vis bnd).height = s ∧
    (1 ≤ (s - 1) / 2 →
      (∃ i ∈ List.range (2 * ((s - 1) / 2)),
        ∃ p ∈ raycastPositions x y ((s - 1) / 2) i, raycastAnchorOk bnd p = true) →
      (raycast_matrix x y ((s - 1) / 2) vis bnd).entry ((s - 1) / 2) ((s - 1) / 2) = true) := by
  refine ⟨?_, ?_, ?_⟩
  · simp only [raycast_matrix]
    omega
  · simp only [raycast_matrix]
    omega
  · intro _ h
    obtain ⟨i, hi, p, hp, hok⟩ := h
    simp only [raycast_matrix, List.any_eq_true]
    refine ⟨(x, y), ?_, ?_⟩
    · exact List.mem_flatMap.mpr
        ⟨i, hi, List.mem_flatMap.mpr
          ⟨p, List.mem_filter.mpr ⟨hp, hok⟩, bresenham_self_mem _ _ _⟩⟩
    · simp only [Bool.and_eq_true, decide_eq_true_eq]
      omega

/-- Witness for C9's amended theorem: kernel size 3 at center `(1,1)` with
an anchor inside the bounds; the center is marked even though the
passability predicate is everywhere `false` (a ray emits its origin before
testing it). -/
theorem raycast_matrix_size_and_center_witness :
    (3 % 2 = 1) ∧
      (raycast_matrix 1 1 ((3 - 1) / 2) (fun _ => false) (fun _ => true)).entry
        ((3 - 1) / 2) ((3 - 1) / 2) = true :=
  ⟨rfl, (raycast_matrix_size_and_center 1 1 3 (fun _ => false) (fun _ => true) rfl).2.2
    (by norm_num) ⟨1, by decide, (2, 1), by decide, by decide⟩⟩

/-- C9 counterexample: at kernel size `s = 1` (radius 0) the loop casts
`2r = 0` rays, so the center entry of the visibility matrix is `false`
even with always-true passability and bounds predicates. -/
theorem raycast_matrix_center_false_radius0 :
    (raycast_matrix 5 5 0 (fun _ => true) (fun _ => true)).entry 0 0 = false := by
  decide

/- Raycast update lemmas (claim C3). -/

theorem bresLoopB_succ (steep : Bool) (sign dx dy ystep : ℤ) (vis : ℤ × ℤ → Bool)
    (n : ℕ) (x y e : ℤ) :
    bresLoop steep sign dx dy ystep vis (fun _ => true) (n + 1) x y e =
      if vis (bresPoint steep sign x y) then
        bresPoint steep sign x y ::
          (if e - dy < 0 then
            bresLoop steep sign dx dy ystep vis (fun _ => true) n (x + 1) (y + ystep) (e - dy + dx)
          else
            bresLoop steep sign dx dy ystep vis (fun _ => true) n (x + 1) y (e - dy))
      else [bresPoint steep sign x y] := by
  simp only [bresLoop]
  by_cases hv : vis (bresPoint steep sign x y) <;>
    by_cases he : e - dy < 0 <;> simp [hv, he]

theorem axis_ray_mem_right (X Y : ℤ) (r : ℕ) (hr : 1 ≤ r) (vis : ℤ × ℤ → Bool)
    (hvis : vis (X, Y) = true) :
    (X + 1, Y) ∈ bresenham (X, Y) (X + (r : ℤ), Y) vis (fun _ => true) := by
  simp only [bresenham, Int.abs_eq_natAbs, gt_iff_lt]
  have hsteep : ¬ (((X + (r : ℤ) - X).natAbs : ℤ) < ((Y - Y).natAbs : ℤ)) := by omega
  simp only [hsteep, decide_False, Bool.false_eq_true, if_false]
  have hflip : ¬ ((X + (r : ℤ)) < X) := by omega
  simp only [hflip, decide_False, Bool.false_eq_true, if_false]
  obtain ⟨m, hm⟩ : ∃ m, (X + (r : ℤ) - X + 1).toNat = m + 1 + 1 := ⟨r - 1, by omega⟩
  rw [hm, bresLoopB_succ]
  have hp : bresPoint false 1 X Y = (X, Y) := by simp [bresPoint]
  rw [hp, hvis]
  simp only [eq_self_iff_true, if_true]
  have hdy : ((Y - Y).natAbs : ℤ) = 0 := by omega
  rw [hdy]
  have he : ¬ ((X + (r : ℤ) - X) / 2 - 0 < 0) := by omega
  rw [if_neg he, bresLoopB_succ]
  have hp2 : bresPoint false 1 (X + 1) Y = (X + 1, Y) := by simp [bresPoint]
  rw [hp2]
  split <;> simp

theorem axis_ray_mem_left (X Y : ℤ) (r : ℕ) (hr : 1 ≤ r) (vis : ℤ × ℤ → Bool)
    (hvis : vis (X, Y) = true) :
    (X - 1, Y) ∈ bresenham (X, Y) (X - (r : ℤ), Y) vis (fun _ => true) := by
  simp only [bresenham, Int.abs_eq_natAbs, gt_iff_lt]
  have hsteep : ¬ (((X - (r : ℤ) - X).natAbs : ℤ) < ((Y - Y).natAbs : ℤ)) := by omega
  simp only [hsteep, decide_False, Bool.false_eq_true, if_false]
  have hflip : (X - (r : ℤ)) < X := by omega
  simp only [hflip, decide_True, if_true]
  obtain ⟨m, hm⟩ : ∃ m, (-(X - (r : ℤ)) - -X + 1).toNat = m + 1 + 1 := ⟨r - 1, by omega⟩
  rw [hm, bresLoopB_succ]
  have hp : bresPoint false (-1) (-X) Y = (X, Y) := by simp [bresPoint]
  rw [hp, hvis]
  simp only [eq_self_iff_true, if_true]
  have hdy : ((Y - Y).natAbs : ℤ) = 0 := by omega
  rw [hdy]
  have he : ¬ ((-(X - (r : ℤ)) - -X) / 2 - 0 < 0) := by omega
  rw [if_neg he, bresLoopB_succ]
  have hp2 : bresPoint false (-1) (-X + 1) Y = (X - 1, Y) := by
    simp [bresPoint]
    ring
  rw [hp2]
  split <;> simp

theorem axis_ray_mem_down (X Y : ℤ) (r : ℕ) (hr : 1 ≤ r) (vis : ℤ × ℤ → Bool)
    (hvis : vis (X, Y) = true) :
    (X, Y + 1) ∈ bresenham (X, Y) (X, Y + (r : ℤ)) vis (fun _ => true) := by
  simp only [bresenham, Int.abs_eq_natAbs, gt_iff_lt]
  have hsteep : ((X - X).natAbs : ℤ) < ((Y + (r : ℤ) - Y).natAbs : ℤ) := by omega
  simp only [hsteep, decide_True, if_true]
  have hflip : ¬ ((Y + (r : ℤ)) < Y) := by omega
  simp only [hflip, decide_False, Bool.false_eq_true, if_false]
  obtain ⟨m, hm⟩ : ∃ m, (Y + (r : ℤ) - Y + 1).toNat = m + 1 + 1 := ⟨r - 1, by omega⟩
  rw [hm, bresLoopB_succ]
  have hp : bresPoint true 1 Y X = (X, Y) := by simp [bresPoint]
  rw [hp, hvis]
  simp only [eq_self_iff_true, if_true]
  have hdy : ((X - X).natAbs : ℤ) = 0 := by omega
  rw [hdy]
  have he : ¬ ((Y + (r : ℤ) - Y) / 2 - 0 < 0) := by omega
  rw [if_neg he, bresLoopB_succ]
  have hp2 : bresPoint true 1 (Y + 1) X = (X, Y + 1) := by simp [bresPoint]
  rw [hp2]
  split <;> simp

theorem axis_ray_mem_up (X Y : ℤ) (r : ℕ) (hr : 1 ≤ r) (vis : ℤ × ℤ → Bool)
    (hvis : vis (X, Y) = true) :
    (X, Y - 1) ∈ bresenham (X, Y) (X, Y - (r : ℤ)) vis (fun _ => true) := by
  simp only [bresenham, Int.abs_eq_natAbs, gt_iff_lt]
  have hsteep : ((X - X).natAbs : ℤ) < ((Y - (r : ℤ) - Y).natAbs : ℤ) := by omega
  simp only [hsteep, decide_True, if_true]
  have hflip : (Y - (r : ℤ)) < Y := by omega
  simp only [hflip, decide_True, if_true]
  obtain ⟨m, hm⟩ : ∃ m, (-(Y - (r : ℤ)) - -Y + 1).toNat = m + 1 + 1 := ⟨r - 1, by omega⟩
  rw [hm, bresLoopB_succ]
  have hp : bresPoint true (-1) (-Y) X = (X, Y) := by simp [bresPoint]
  rw [hp, hvis]
  simp only [eq_self_iff_true, if_true]
  have hdy : ((X - X).natAbs : ℤ) = 0 := by omega
  rw [hdy]
  have he : ¬ ((-(Y - (r : ℤ)) - -Y) / 2 - 0 < 0) := by omega
  rw [if_neg he, bresLoopB_succ]
  have hp2 : bresPoint true (-1) (-Y + 1) X = (X, Y - 1) := by
    simp [bresPoint]
    ring
  rw [hp2]
  split <;> simp

theorem visibleCells_cross (g : SampleGrid) (x y r : ℕ) (hr : 1 ≤ r)
    (hxl : r ≤ x) (hxr : x + r < g.width) (hyl : r ≤ y) (hyr : y + r < g.height)
    (hcenter : nearestThreshold < (g.sample x y).state) :
    ((x : ℤ) + 1, (y : ℤ)) ∈ raycastVisibleCells x y r g.visOracle g.bndOracle ∧
    ((x : ℤ) - 1, (y : ℤ)) ∈ raycastVisibleCells x y r g.visOracle g.bndOracle ∧
    ((x : ℤ), (y : ℤ) + 1) ∈ raycastVisibleCells x y r g.visOracle g.bndOracle ∧
    ((x : ℤ), (y : ℤ) - 1) ∈ raycastVisibleCells x y r g.visOracle g.bndOracle := by
  have hvis : g.visOracle ((x : ℤ), (y : ℤ)) = true := by
    unfold SampleGrid.visOracle SampleGrid.get_value
    rw [if_pos ⟨Int.natCast_nonneg x, Int.natCast_nonneg y⟩]
    simp only [Int.toNat_natCast, Bool.and_eq_true, decide_eq_true_eq]
    exact ⟨⟨by omega, by omega⟩, hcenter⟩
  have hbnd : ∀ (p1 p2 : ℤ), 0 ≤ p1 → 0 ≤ p2 → p1.toNat < g.width → p2.toNat < g.height →
      raycastAnchorOk g.bndOracle (p1, p2) = true := by
    intro p1 p2 h1 h2 h3 h4
    unfold raycastAnchorOk SampleGrid.bndOracle SampleGrid.bounds_check
    rw [if_pos ⟨h1, h2⟩]
    simp only [Bool.and_eq_true, decide_eq_true_eq]
    exact ⟨⟨h1, h2⟩, h3, h4⟩
  have hir : r ∈ List.range (2 * r) := List.mem_range.mpr (by omega)
  refine ⟨?_, ?_, ?_, ?_⟩
  · refine List.mem_flatMap.mpr ⟨r, hir, List.mem_flatMap.mpr ⟨((x : ℤ) + r, (y : ℤ)), ?_, ?_⟩⟩
    · refine List.mem_filter.mpr ⟨?_, hbnd _ _ (by omega) (by omega) (by omega) (by omega)⟩
      simp only [raycastPositions, List.mem_cons, List.mem_singleton, Prod.mk.injEq,
        List.not_mem_nil, or_false, true_and, and_true]
      omega
    · exact axis_ray_mem_right (x : ℤ) (y : ℤ) r hr _ hvis
  · refine List.mem_flatMap.mpr ⟨r, hir, List.mem_flatMap.mpr ⟨((x : ℤ) - r, (y : ℤ)), ?_, ?_⟩⟩
    · refine List.mem_filter.mpr ⟨?_, hbnd _ _ (by omega) (by omega) (by omega) (by omega)⟩
      simp only [raycastPositions, List.mem_cons, List.mem_singleton, Prod.mk.injEq,
        List.not_mem_nil, or_false, true_and, and_true]
      omega
    · exact axis_ray_mem_left (x : ℤ) (y : ℤ) r hr _ hvis
  · refine List.mem_flatMap.mpr ⟨r, hir, List.mem_flatMap.mpr ⟨((x : ℤ), (y : ℤ) + r), ?_, ?_⟩⟩
    · refine List.mem_filter.mpr ⟨?_, hbnd _ _ (by omega) (by omega) (by omega) (by omega)⟩
      simp only [raycastPositions, List.mem_cons, List.mem_singleton, Prod.mk.injEq,
        List.not_mem_nil, or_false, true_and, and_true]
      omega
    · exact axis_ray_mem_down (x : ℤ) (y : ℤ) r hr _ hvis
  · refine List.mem_flatMap.mpr ⟨r, hir, List.mem_flatMap.mpr ⟨((x : ℤ), (y : ℤ) - r), ?_, ?_⟩⟩
    · refine List.mem_filter.mpr ⟨?_, hbnd _ _ (by omega) (by omega) (by omega) (by omega)⟩
      simp only [raycastPositions, List.mem_cons, List.mem_singleton, Prod.mk.injEq,
        List.not_mem_nil, or_false, true_and, and_true]
      omega
    · exact axis_ray_mem_up (x : ℤ) (y : ℤ) r hr _ hvis

theorem matrix_overlay_elim {mw mh kw kh x y : ℕ} {e : (ℕ × ℕ) × (ℕ × ℕ)}
    (h : e ∈ matrix_overlay mw mh kw kh x y) :
    e.2.1 < kw ∧ e.2.2 < kh ∧ kw / 2 ≤ x + e.2.1 ∧ kh / 2 ≤ y + e.2.2 ∧
    e.1.1 = x + e.2.1 - kw / 2 ∧ e.1.2 = y + e.2.2 - kh / 2 ∧ e.1.1 < mw ∧ e.1.2 < mh := by
  unfold matrix_overlay at h
  rw [List.mem_filterMap] at h
  obtain ⟨ij, hmem, hf⟩ := h
  rw [List.mem_flatMap] at hmem
  obtain ⟨i, hi, hj⟩ := hmem
  rw [List.mem_map] at hj
  obtain ⟨j, hjr, hij⟩ := hj
  rw [List.mem_range] at hi hjr
  subst hij
  by_cases h1 : x + i < kw / 2 ∨ y + j < kh / 2
  · rw [if_pos h1] at hf
    exact absurd hf (by simp)
  rw [if_neg h1] at hf
  by_cases h2 : x + i - kw / 2 < mw ∧ y + j - kh / 2 < mh
  · rw [if_pos h2] at hf
    injection hf with hf
    subst hf
    dsimp only
    omega
  · rw [if_neg h2] at hf
    exact absurd hf (by simp)

theorem matrix_overlay_intro (mw mh kw kh x y i j : ℕ)
    (hi : i < kw) (hj : j < kh) (h1 : kw / 2 ≤ x + i) (h2 : kh / 2 ≤ y + j)
    (h3 : x + i - kw / 2 < mw) (h4 : y + j - kh / 2 < mh) :
    ((x + i - kw / 2, y + j - kh / 2), (i, j)) ∈ matrix_overlay mw mh kw kh x y := by
  unfold matrix_overlay
  rw [List.mem_filterMap]
  refine ⟨(i, j), ?_, ?_⟩
  · rw [List.mem_flatMap]
    exact ⟨i, List.mem_range.mpr hi, List.mem_map.mpr ⟨j, List.mem_range.mpr hj, rfl⟩⟩
  · rw [if_neg (by omega), if_pos ⟨h3, h4⟩]

theorem updStep_groundTruth (k : Mat (Option ℚ)) (acc : SampleGrid)
    (e : (ℕ × ℕ) × (ℕ × ℕ)) :
    (updStep k acc e).groundTruth = acc.groundTruth := by
  unfold updStep
  split <;> rfl

theorem updStep_sample_other (k : Mat (Option ℚ)) (acc : SampleGrid)
    (e : (ℕ × ℕ) × (ℕ × ℕ)) (a b : ℕ) (hne : ¬ (a = e.1.1 ∧ b = e.1.2)) :
    (updStep k acc e).sample a b = acc.sample a b := by
  unfold updStep
  split
  · show (if a = e.1.1 ∧ b = e.1.2 then _ else acc.sample a b) = acc.sample a b
    rw [if_neg hne]
  · rfl

theorem kalman_update_cov0_self (n : KalmanNode) (z : ℚ) (h : n.covariance = 0) :
    n.update z 0 = n := by
  obtain ⟨s, c⟩ := n
  simp only at h
  subst h
  unfold KalmanNode.update
  norm_num [kalmanEps_eq]

theorem updfold_pinned_stable (k : Mat (Option ℚ)) (l : List ((ℕ × ℕ) × (ℕ × ℕ))) :
    ∀ (g : SampleGrid) (na nb : ℕ),
      (∀ e ∈ l, e.1 = (na, nb) → k.entry e.2.2 e.2.1 = some 0) →
      (g.sample na nb).covariance = 0 →
      (l.foldl (updStep k) g).sample na nb = g.sample na nb := by
  induction l with
  | nil => intro g na nb _ _; rfl
  | cons e t ih =>
    intro g na nb hall hcov
    rw [List.foldl_cons]
    by_cases he : e.1 = (na, nb)
    · have hk := hall e (List.mem_cons_self e t) he
      have hstep : (updStep k g e).sample na nb = g.sample na nb := by
        unfold updStep
        rw [hk]
        show (if na = e.1.1 ∧ nb = e.1.2 then
            (g.sample e.1.1 e.1.2).update (if g.groundTruth e.1.1 e.1.2 then 1 else 0) 0
          else g.sample na nb) = g.sample na nb
        have h1 : e.1.1 = na := by rw [he]
        have h2 : e.1.2 = nb := by rw [he]
        rw [if_pos ⟨h1.symm, h2.symm⟩, h1, h2, kalman_update_cov0_self _ _ hcov]
      rw [ih (updStep k g e) na nb
        (fun e' he' heq => hall e' (List.mem_cons_of_mem e he') heq) (by rw [hstep, hcov]),
        hstep]
    · have hstep : (updStep k g e).sample na nb = g.sample na nb :=
        updStep_sample_other k g e na nb (by
          intro hcon
          exact he (Prod.ext_iff.mpr ⟨hcon.1.symm, hcon.2.symm⟩))
      rw [ih (updStep k g e) na nb
        (fun e' he' heq => hall e' (List.mem_cons_of_mem e he') heq) (by rw [hstep, hcov]),
        hstep]

theorem updfold_pins (k : Mat (Option ℚ)) (l : List ((ℕ × ℕ) × (ℕ × ℕ))) :
    ∀ (g : SampleGrid) (na nb : ℕ),
      (∀ e ∈ l, e.1 = (na, nb) → k.entry e.2.2 e.2.1 = some 0) →
      (∃ e ∈ l, e.1 = (na, nb)) →
      kalmanEps ≤ (g.sample na nb).covariance →
      (l.foldl (updStep k) g).sample na nb =
        ⟨if g.groundTruth na nb then 1 else 0, 0⟩ := by
  induction l with
  | nil =>
    intro g na nb _ hmem _
    obtain ⟨e, he, _⟩ := hmem
    exact absurd he (List.not_mem_nil e)
  | cons e t ih =>
    intro g na nb hall hmem hcov
    rw [List.foldl_cons]
    by_cases he : e.1 = (na, nb)
    · have hk := hall e (List.mem_cons_self e t) he
      have h1 : e.1.1 = na := by rw [he]
      have h2 : e.1.2 = nb := by rw [he]
      have hstep : (updStep k g e).sample na nb =
          ⟨if g.groundTruth na nb then 1 else 0, 0⟩ := by
        unfold updStep
        rw [hk]
        show (if na = e.1.1 ∧ nb = e.1.2 then
            (g.sample e.1.1 e.1.2).update (if g.groundTruth e.1.1 e.1.2 then 1 else 0) 0
          else g.sample na nb) = _
        rw [if_pos ⟨h1.symm, h2.symm⟩, h1, h2]
        have hpin := kalman_update_r0_pins (g.sample na nb)
          (if g.groundTruth na nb then 1 else 0) hcov
        obtain ⟨hs, hc⟩ := hpin
        cases hu : (g.sample na nb).update (if g.groundTruth na nb then 1 else 0) 0 with
        | mk s c =>
          rw [hu] at hs hc
          simp only at hs hc
          rw [hs, hc]
      rw [updfold_pinned_stable k t (updStep k g e) na nb
        (fun e' he' heq => hall e' (List.mem_cons_of_mem e he') heq)
        (by rw [hstep]), hstep]
    · have hstep : (updStep k g e).sample na nb = g.sample na nb :=
        updStep_sample_other k g e na nb (by
          intro hcon
          exact he (Prod.ext_iff.mpr ⟨hcon.1.symm, hcon.2.symm⟩))
      have hgt : (updStep k g e).groundTruth = g.groundTruth := updStep_groundTruth k g e
      have hmem' : ∃ e' ∈ t, e'.1 = (na, nb) := by
        obtain ⟨e', he', heq⟩ := hmem
        rcases List.mem_cons.mp he' with h | h
        · exact absurd (h ▸ heq) he
        · exact ⟨e', h, heq⟩
      rw [ih (updStep k g e) na nb
        (fun e' he' heq => hall e' (List.mem_cons_of_mem e he') heq) hmem'
        (by rw [hstep]; exact hcov)]
      rw [hgt]

theorem update_kernel_pins (g : SampleGrid) (x y r : ℕ) (km : Mat (Option ℚ))
    (hkw : km.width = 2 * r + 1) (hkh : km.height = 2 * r + 1) (hr : 1 ≤ r)
    (hxl : r ≤ x) (hxr : x + r < g.width) (hyl : r ≤ y) (hyr : y + r < g.height)
    (hcR : km.entry r (r + 1) = some 0)
    (hcL : km.entry r (r - 1) = some 0)
    (hcD : km.entry (r + 1) r = some 0)
    (hcU : km.entry (r - 1) r = some 0)
    (na nb : ℕ) (hn : (na, nb) ∈ [(x + 1, y), (x - 1, y), (x, y + 1), (x, y - 1)])
    (hcov : kalmanEps ≤ (g.sample na nb).covariance) :
    ((g.update_kernel x y km).sample na nb) =
      ⟨if g.groundTruth na nb then 1 else 0, 0⟩ := by
  unfold SampleGrid.update_kernel
  simp only [List.mem_cons, List.not_mem_nil, or_false] at hn
  rcases hn with hn | hn | hn | hn
  all_goals rw [Prod.mk.injEq] at hn
  · -- right neighbor (x+1, y): kernel offset (i, j) = (r+1, r)
    obtain ⟨h1, h2⟩ := hn
    refine updfold_pins km _ g na nb ?_ ?_ hcov
    · intro e he heq
      have hel := matrix_overlay_elim he
      rw [hkw, hkh] at hel
      rw [Prod.ext_iff] at heq
      have hi : e.2.1 = r + 1 := by omega
      have hj : e.2.2 = r := by omega
      rw [hi, hj]
      exact hcR
    · refine ⟨((x + (r + 1) - (2 * r + 1) / 2, y + r - (2 * r + 1) / 2), (r + 1, r)), ?_, ?_⟩
      · have := matrix_overlay_intro g.width g.height (2 * r + 1) (2 * r + 1) x y (r + 1) r
          (by omega) (by omega) (by omega) (by omega) (by omega) (by omega)
        rw [hkw, hkh]
        exact this
      · rw [Prod.ext_iff]
        constructor <;> dsimp only <;> omega
  · -- left neighbor (x-1, y): kernel offset (r-1, r)
    obtain ⟨h1, h2⟩ := hn
    refine updfold_pins km _ g na nb ?_ ?_ hcov
    · intro e he heq
      have hel := matrix_overlay_elim he
      rw [hkw, hkh] at hel
      rw [Prod.ext_iff] at heq
      have hi : e.2.1 = r - 1 := by omega
      have hj : e.2.2 = r := by omega
      rw [hi, hj]
      exact hcL
    · refine ⟨((x + (r - 1) - (2 * r + 1) / 2, y + r - (2 * r + 1) / 2), (r - 1, r)), ?_, ?_⟩
      · have := matrix_overlay_intro g.width g.height (2 * r + 1) (2 * r + 1) x y (r - 1) r
          (by omega) (by omega) (by omega) (by omega) (by omega) (by omega)
        rw [hkw, hkh]
        exact this
      · rw [Prod.ext_iff]
        constructor <;> dsimp only <;> omega
  · -- down neighbor (x, y+1): kernel offset (r, r+1)
    obtain ⟨h1, h2⟩ := hn
    refine updfold_pins km _ g na nb ?_ ?_ hcov
    · intro e he heq
      have hel := matrix_overlay_elim he
      rw [hkw, hkh] at hel
      rw [Prod.ext_iff] at heq
      have hi : e.2.1 = r := by omega
      have hj : e.2.2 = r + 1 := by omega
      rw [hi, hj]
      exact hcD
    · refine ⟨((x + r - (2 * r + 1) / 2, y + (r + 1) - (2 * r + 1) / 2), (r, r + 1)), ?_, ?_⟩
      · have := matrix_overlay_intro g.width g.height (2 * r + 1) (2 * r + 1) x y r (r + 1)
          (by omega) (by omega) (by omega) (by omega) (by omega) (by omega)
        rw [hkw, hkh]
        exact this
      · rw [Prod.ext_iff]
        constructor <;> dsimp only <;> omega
  · -- up neighbor (x, y-1): kernel offset (r, r-1)
    obtain ⟨h1, h2⟩ := hn
    refine updfold_pins km _ g na nb ?_ ?_ hcov
    · intro e he heq
      have hel := matrix_overlay_elim he
      rw [hkw, hkh] at hel
      rw [Prod.ext_iff] at heq
      have hi : e.2.1 = r := by omega
      have hj : e.2.2 = r - 1 := by omega
      rw [hi, hj]
      exact hcU
    · refine ⟨((x + r - (2 * r + 1) / 2, y + (r - 1) - (2 * r + 1) / 2), (r, r - 1)), ?_, ?_⟩
      · have := matrix_overlay_intro g.width g.height (2 * r + 1) (2 * r + 1) x y r (r - 1)
          (by omega) (by omega) (by omega) (by omega) (by omega) (by omega)
        rw [hkw, hkh]
        exact this
      · rw [Prod.ext_iff]
        constructor <;> dsimp only <;> omega

/-- C3 (amended): after `raycast_update((x,y), k)` with an odd
`(2r+1)`-sided kernel, an in-bounds 4-neighbor `n` of `(x,y)` has belief
state equal to the ground-truth bit of `n` and covariance `0`, provided
(i) `r ≥ 1` (for `s = 1` no rays are cast), (ii) the four axis perimeter
anchors at distance `r` are in bounds (otherwise the corresponding rays
are never cast and the neighbor can stay untouched), (iii) the center's
belief state exceeds the passability threshold `0.5` (otherwise every ray
stops at the center and no neighbor is visible — see the counterexample),
and (iv) the neighbor's prior covariance is at least the Kalman floor
`1e-6` (an `r = 0` update with zero covariance leaves the state as is). -/
theorem raycast_update_pins_cross (g : SampleGrid) (x y r : ℕ) (k : Mat ℚ)
    (hkw : k.width = 2 * r + 1) (hkh : k.height = 2 * r + 1) (hr : 1 ≤ r)
    (hxl : r ≤ x) (hxr : x + r < g.width) (hyl : r ≤ y) (hyr : y + r < g.height)
    (hcenter : nearestThreshold < (g.sample x y).state)
    (na nb : ℕ) (hn : (na, nb) ∈ [(x + 1, y), (x - 1, y), (x, y + 1), (x, y - 1)])
    (hcov : kalmanEps ≤ (g.sample na nb).covariance) :
    ((g.raycast_update x y k).sample na nb).state =
      (if g.groundTruth na nb then 1 else 0) ∧
    ((g.raycast_update x y k).sample na nb).covariance = 0 := by
  have hkr : k.width / 2 = r := by omega
  have hcross := visibleCells_cross g x y r hr hxl hxr hyl hyr hcenter
  have hvR : (g.visibility x y r).entry r (r + 1) = true := by
    simp only [SampleGrid.visibility, raycast_matrix]
    rw [List.any_eq_true]
    refine ⟨((x : ℤ) + 1, (y : ℤ)), hcross.1, ?_⟩
    simp only [Bool.and_eq_true, decide_eq_true_eq]
    constructor <;> omega
  have hvL : (g.visibility x y r).entry r (r - 1) = true := by
    simp only [SampleGrid.visibility, raycast_matrix]
    rw [List.any_eq_true]
    refine ⟨((x : ℤ) - 1, (y : ℤ)), hcross.2.1, ?_⟩
    simp only [Bool.and_eq_true, decide_eq_true_eq]
    constructor <;> omega
  have hvD : (g.visibility x y r).entry (r + 1) r = true := by
    simp only [SampleGrid.visibility, raycast_matrix]
    rw [List.any_eq_true]
    refine ⟨((x : ℤ), (y : ℤ) + 1), hcross.2.2.1, ?_⟩
    simp only [Bool.and_eq_true, decide_eq_true_eq]
    constructor <;> omega
  have hvU : (g.visibility x y r).entry (r - 1) r = true := by
    simp only [SampleGrid.visibility, raycast_matrix]
    rw [List.any_eq_true]
    refine ⟨((x : ℤ), (y : ℤ) - 1), hcross.2.2.2, ?_⟩
    simp only [Bool.and_eq_true, decide_eq_true_eq]
    constructor <;> omega
  have haR : (adjacency_kernel k).entry r (r + 1) = some 0 := by
    simp only [adjacency_kernel]
    rw [if_pos (by omega)]
  have haL : (adjacency_kernel k).entry r (r - 1) = some 0 := by
    simp only [adjacency_kernel]
    rw [if_pos (by omega)]
  have haD : (adjacency_kernel k).entry (r + 1) r = some 0 := by
    simp only [adjacency_kernel]
    rw [if_pos (by omega)]
  have haU : (adjacency_kernel k).entry (r - 1) r = some 0 := by
    simp only [adjacency_kernel]
    rw [if_pos (by omega)]
  have key : (g.raycast_update x y k).sample na nb =
      ⟨if g.groundTruth na nb then 1 else 0, 0⟩ := by
    simp only [SampleGrid.raycast_update]
    refine update_kernel_pins g x y r _ hkw hkh hr hxl hxr hyl hyr ?_ ?_ ?_ ?_
      na nb hn hcov
    · show (if (g.visibility x y (k.width / 2)).entry r (r + 1) = true
          then (adjacency_kernel k).entry r (r + 1) else none) = some 0
      rw [hkr, hvR]
      simpa using haR
    · show (if (g.visibility x y (k.width / 2)).entry r (r - 1) = true
          then (adjacency_kernel k).entry r (r - 1) else none) = some 0
      rw [hkr, hvL]
      simpa using haL
    · show (if (g.visibility x y (k.width / 2)).entry (r + 1) r = true
          then (adjacency_kernel k).entry (r + 1) r else none) = some 0
      rw [hkr, hvD]
      simpa using haD
    · show (if (g.visibility x y (k.width / 2)).entry (r - 1) r = true
          then (adjacency_kernel k).entry (r - 1) r else none) = some 0
      rw [hkr, hvU]
      simpa using haU
  rw [key]
  exact ⟨rfl, rfl⟩

/-- Witness for C3's amended theorem: a 3×3 grid, all beliefs passable with
covariance 1, center `(1,1)`, a 3×3 zero kernel; the right neighbor `(2,1)`
is pinned to its ground-truth bit with covariance 0. -/
theorem raycast_update_pins_cross_witness :
    ((SampleGrid.raycast_update
        { width := 3, height := 3,
          sample := fun _ _ => ⟨1, 1⟩,
          groundTruth := fun a _ => a = 0 }
        1 1 { width := 3, height := 3, entry := fun _ _ => 0 }).sample 2 1).state = 0 ∧
    ((SampleGrid.raycast_update
        { width := 3, height := 3,
          sample := fun _ _ => ⟨1, 1⟩,
          groundTruth := fun a _ => a = 0 }
        1 1 { width := 3, height := 3, entry := fun _ _ => 0 }).sample 2 1).covariance = 0 := by
  have h := raycast_update_pins_cross
    { width := 3, height := 3,
      sample := fun _ _ => ⟨1, 1⟩,
      groundTruth := fun a _ => a = 0 }
    1 1 1 { width := 3, height := 3, entry := fun _ _ => 0 }
    rfl rfl (by norm_num) (by norm_num) (by norm_num) (by norm_num) (by norm_num)
    (by decide) 2 1 (by norm_num)
    (by decide)
  simpa using h


/-- C3 counterexample: on a freshly constructed 2×2 belief grid (all states
`0.0`, covariance `1.0`) the center `(0,0)` fails the visibility threshold,
every ray stops at the center, and `raycast_update((0,0), zeros(3))` leaves
the in-bounds 4-neighbor `(1,0)` with covariance `1 ≠ 0`. -/
theorem raycast_update_neighbor_not_pinned :
    ((SampleGrid.raycast_update
        { width := 2, height := 2,
          sample := fun _ _ => KalmanNode.default,
          groundTruth := fun _ _ => false }
        0 0 { width := 3, height := 3, entry := fun _ _ => 0 }).sample 1 0).covariance ≠ 0 := by
  decide

/- Lazy-sampling lemmas (claim C6). -/

theorem sampleAdjStep_preserve (g : SampleGrid) (rng : ℕ → ℚ)
    (acc : List ((ℕ × ℕ) × ℕ) × RolloutScratch) (n : ℕ × ℕ) (a b : ℕ)
    (h : acc.2.before a b = true) :
    (sampleAdjStep g rng acc n).2.before a b = true ∧
    (sampleAdjStep g rng acc n).2.gridmap a b = acc.2.gridmap a b := by
  unfold sampleAdjStep
  split
  · rename_i hcond
    simp only [Bool.and_eq_true, Bool.not_eq_true'] at hcond
    by_cases hab : a = n.1 ∧ b = n.2
    · exfalso
      unfold SampleGrid.bounds_check at hcond
      unfold scratchGet at hcond
      obtain ⟨h1, h2⟩ := hab
      subst h1; subst h2
      rw [hcond.1, h] at hcond
      simp at hcond
    · unfold sample_cached
      split <;>
        simp only <;>
        constructor <;>
        · first
          | (rw [if_neg hab]; exact h)
          | (rw [if_neg hab])
          | rfl
  · exact ⟨h, rfl⟩

theorem sampleAdjFold_preserve (g : SampleGrid) (rng : ℕ → ℚ) :
    ∀ (ns : List (ℕ × ℕ)) (acc : List ((ℕ × ℕ) × ℕ) × RolloutScratch) (a b : ℕ),
      acc.2.before a b = true →
      ((ns.foldl (sampleAdjStep g rng) acc).2.before a b = true ∧
       (ns.foldl (sampleAdjStep g rng) acc).2.gridmap a b = acc.2.gridmap a b) := by
  intro ns
  induction ns with
  | nil => intro acc a b h; exact ⟨h, rfl⟩
  | cons n rest ih =>
    intro acc a b h
    rw [List.foldl_cons]
    have hstep := sampleAdjStep_preserve g rng acc n a b h
    have hrest := ih (sampleAdjStep g rng acc n) a b hstep.1
    exact ⟨hrest.1, hrest.2.trans hstep.2⟩

theorem sample_adjacenct_preserve (g : SampleGrid) (rng : ℕ → ℚ)
    (σ : RolloutScratch) (x y a b : ℕ) (h : σ.before a b = true) :
    (sample_adjacenct g rng σ x y).2.before a b = true ∧
    (sample_adjacenct g rng σ x y).2.gridmap a b = σ.gridmap a b :=
  sampleAdjFold_preserve g rng (neighbors x y false) ([], σ) a b h

theorem sampleCalls_preserve (g : SampleGrid) (rng : ℕ → ℚ) :
    ∀ (cs : List (ℕ × ℕ)) (σ : RolloutScratch) (a b : ℕ),
      σ.before a b = true →
      ((sampleCalls g rng cs σ).before a b = true ∧
       (sampleCalls g rng cs σ).gridmap a b = σ.gridmap a b) := by
  intro cs
  induction cs with
  | nil => intro σ a b h; exact ⟨h, rfl⟩
  | cons c rest ih =>
    intro σ a b h
    unfold sampleCalls
    rw [List.foldl_cons]
    have hcall := sample_adjacenct_preserve g rng σ c.1 c.2 a b h
    have hrest := ih (sample_adjacenct g rng σ c.1 c.2).2 a b hcall.1
    exact ⟨hrest.1, hrest.2.trans hcall.2⟩

theorem sampleAdjStep_spec (g : SampleGrid) (rng : ℕ → ℚ)
    (out : List ((ℕ × ℕ) × ℕ)) (σ : RolloutScratch) (n : ℕ × ℕ) :
    ((sampleAdjStep g rng (out, σ) n).1 =
      if scratchGet g.width g.height (sampleAdjStep g rng (out, σ) n).2.gridmap n.1 n.2 = true
      then out ++ [(n, 1)] else out) ∧
    (g.bounds_check n.1 n.2 = true →
      (sampleAdjStep g rng (out, σ) n).2.before n.1 n.2 = true) := by
  unfold sampleAdjStep
  split
  · rename_i hcond
    simp only [Bool.and_eq_true, Bool.not_eq_true'] at hcond
    obtain ⟨hb, _⟩ := hcond
    unfold SampleGrid.bounds_check at hb
    simp only [Bool.and_eq_true, decide_eq_true_eq] at hb
    unfold sample_cached
    split
    · constructor
      · simp only [scratchGet, eq_self_iff_true, and_self, if_true]
        simp only [hb.1, hb.2, decide_True, Bool.true_and]
      · intro _
        simp only [eq_self_iff_true, and_self, if_true]
    · constructor
      · simp only [scratchGet, eq_self_iff_true, and_self, if_true]
        simp [hb.1, hb.2]
      · intro _
        simp only [eq_self_iff_true, and_self, if_true]
  · rename_i hcond
    constructor
    · rfl
    · intro hbtrue
      simp only [Bool.and_eq_true, Bool.not_eq_true', not_and] at hcond
      have h2 := hcond hbtrue
      simp only [Bool.not_eq_false] at h2
      unfold scratchGet at h2
      simp only [Bool.and_eq_true, decide_eq_true_eq] at h2
      tauto

theorem scratchGet_eq_bounds_and (g : SampleGrid) (f : ℕ → ℕ → Bool) (x y : ℕ) :
    scratchGet g.width g.height f x y = (g.bounds_check x y && f x y) := by
  unfold scratchGet SampleGrid.bounds_check
  rw [Bool.and_assoc]


theorem sampleAdjFold_out (g : SampleGrid) (rng : ℕ → ℚ) :
    ∀ (ns : List (ℕ × ℕ)) (out : List ((ℕ × ℕ) × ℕ)) (σ : RolloutScratch),
      (ns.foldl (sampleAdjStep g rng) (out, σ)).1 =
        out ++ (ns.filter (fun n =>
          scratchGet g.width g.height
            (ns.foldl (sampleAdjStep g rng) (out, σ)).2.gridmap n.1 n.2)).map
          (fun n => (n, 1)) ∧
      (∀ n ∈ ns, g.bounds_check n.1 n.2 = true →
        (ns.foldl (sampleAdjStep g rng) (out, σ)).2.before n.1 n.2 = true) := by
  intro ns
  induction ns with
  | nil =>
    intro out σ
    exact ⟨by simp, by simp⟩
  | cons n rest ih =>
    intro out σ
    rw [List.foldl_cons]
    have hspec := sampleAdjStep_spec g rng out σ n
    rcases hs1 : sampleAdjStep g rng (out, σ) n with ⟨out1, σ1⟩
    rw [hs1] at hspec
    simp only at hspec
    have hr := ih out1 σ1
    by_cases hb : g.bounds_check n.1 n.2 = true
    · have hbefore : σ1.before n.1 n.2 = true := hspec.2 hb
      have hfr := sampleAdjFold_preserve g rng rest (out1, σ1) n.1 n.2 hbefore
      have hgm : scratchGet g.width g.height
          (rest.foldl (sampleAdjStep g rng) (out1, σ1)).2.gridmap n.1 n.2 =
          scratchGet g.width g.height σ1.gridmap n.1 n.2 := by
        unfold scratchGet
        rw [hfr.2]
      constructor
      · rw [hr.1, List.filter_cons]
        by_cases hv : scratchGet g.width g.height σ1.gridmap n.1 n.2 = true
        · rw [if_pos (hgm.trans hv)]
          rw [hspec.1, if_pos hv]
          simp
        · rw [if_neg (fun h => hv (hgm.symm.trans h))]
          rw [hspec.1, if_neg hv]
      · intro m hm hmb
        rcases List.mem_cons.mp hm with h | h
        · subst h
          exact hfr.1
        · exact hr.2 m h hmb
    · have hb' : g.bounds_check n.1 n.2 = false := by
        revert hb
        cases g.bounds_check n.1 n.2 <;> simp
      have hc : scratchGet g.width g.height
          (rest.foldl (sampleAdjStep g rng) (out1, σ1)).2.gridmap n.1 n.2 = false := by
        rw [scratchGet_eq_bounds_and, hb']
        simp
      have hcσ : scratchGet g.width g.height σ1.gridmap n.1 n.2 = false := by
        rw [scratchGet_eq_bounds_and, hb']
        simp
      constructor
      · rw [hr.1, List.filter_cons]
        rw [if_neg (by simp [hc])]
        rw [hspec.1, if_neg (by simp [hcσ])]
      · intro m hm hmb
        rcases List.mem_cons.mp hm with h | h
        · subst h
          exact absurd hmb hb
        · exact hr.2 m h hmb

/-- C6: within one rollout, once `sample_adjacenct` has been called from a
cell `(x, y)`, every later call from `(x, y)` — with arbitrarily many
interleaved `sample_adjacenct` calls from other cells in between — returns
the same included neighbor list (each neighbor paired with cost 1):
`sampled_before` freezes each realized cell's `sampled` bit, so each cell is
realized by a Bernoulli draw at most once per rollout and every later
inclusion test reads the same realized value. -/
theorem sample_adjacenct_idempotent (g : SampleGrid) (rng : ℕ → ℚ)
    (σ0 : RolloutScratch) (x y : ℕ) (cs : List (ℕ × ℕ)) :
    (sample_adjacenct g rng
        (sampleCalls g rng cs (sample_adjacenct g rng σ0 x y).2) x y).1 =
      (sample_adjacenct g rng σ0 x y).1 := by
  show ((neighbors x y false).foldl (sampleAdjStep g rng)
      ([], sampleCalls g rng cs
        ((neighbors x y false).foldl (sampleAdjStep g rng) ([], σ0)).2)).1 =
    ((neighbors x y false).foldl (sampleAdjStep g rng) ([], σ0)).1
  have h1 := sampleAdjFold_out g rng (neighbors x y false) [] σ0
  have h2 := sampleAdjFold_out g rng (neighbors x y false) []
    (sampleCalls g rng cs
      ((neighbors x y false).foldl (sampleAdjStep g rng) ([], σ0)).2)
  rw [h2.1, h1.1]
  simp only [List.nil_append]
  refine congrArg (List.map fun n => (n, 1)) (List.filter_congr ?_)
  intro n hn
  by_cases hb : g.bounds_check n.1 n.2 = true
  · have hbef1 := h1.2 n hn hb
    have hcalls := sampleCalls_preserve g rng cs
      ((neighbors x y false).foldl (sampleAdjStep g rng) ([], σ0)).2 n.1 n.2 hbef1
    have hf2 := sampleAdjFold_preserve g rng (neighbors x y false)
      ([], sampleCalls g rng cs
        ((neighbors x y false).foldl (sampleAdjStep g rng) ([], σ0)).2) n.1 n.2
      hcalls.1
    show scratchGet g.width g.height _ n.1 n.2 = scratchGet g.width g.height _ n.1 n.2
    unfold scratchGet
    rw [hf2.2]
    dsimp only
    rw [hcalls.2]
  · have hb' : g.bounds_check n.1 n.2 = false := by
      revert hb
      cases g.bounds_check n.1 n.2 <;> simp
    show scratchGet g.width g.height _ n.1 n.2 = scratchGet g.width g.height _ n.1 n.2
    rw [scratchGet_eq_bounds_and, scratchGet_eq_bounds_and, hb']
    simp

theorem greedyStore_next_node_mem [DecidableEq N] (st : GreedyStore N W)
    (nodes : List N) (r : N) (h : st.next_node nodes = some r) : r ∈ nodes :=
  List.mem_of_find?_eq_some h

theorem adjEq_refl (p : ℕ × ℕ) : adjEq p p = true := by
  unfold adjEq
  simp

theorem sampleGrid_adjacent_mem (g : SampleGrid) (p : ℕ × ℕ)
    (hW : g.width < usizeSize) (hH : g.height < usizeSize)
    (hp : g.bounds_check p.1 p.2 = true) :
    ∀ n ∈ g.adjacent p.1 p.2 false,
      g.bounds_check n.1 n.2 = true ∧ adjEq p n = true := by
  obtain ⟨x, y⟩ := p
  intro n hn
  unfold SampleGrid.adjacent at hn
  rw [List.mem_filter] at hn
  obtain ⟨hmem, hb⟩ := hn
  refine ⟨hb, ?_⟩
  have h64 : usizeSize = 18446744073709551616 := by norm_num [usizeSize]
  rw [h64] at hW hH
  unfold SampleGrid.bounds_check at hp hb
  rw [Bool.and_eq_true, decide_eq_true_eq, decide_eq_true_eq] at hp hb
  unfold neighbors at hmem
  simp only [Bool.false_eq_true, if_false, List.append_nil, List.mem_cons,
    List.not_mem_nil, or_false] at hmem
  unfold adjEq
  rw [Bool.or_eq_true, decide_eq_true_eq, decide_eq_true_eq]
  right
  rcases hmem with h | h | h | h <;> subst h <;>
    simp only [wrapAdd1, wrapSub1] at hb ⊢ <;> rw [h64] at hb ⊢ <;> omega

theorem sampleStar_choice_ok (g : SampleGrid)
    (hW : g.width < usizeSize) (hH : g.height < usizeSize)
    (p : ℕ × ℕ) (hp : g.bounds_check p.1 p.2 = true) (o : Option (ℕ × ℕ))
    (ho : ∀ r, o = some r → r ∈ g.adjacent p.1 p.2 false) :
    g.bounds_check (sampleStarBump g p (o.getD p)).1
      (sampleStarBump g p (o.getD p)).2 = true ∧
    adjEq p (sampleStarBump g p (o.getD p)) = true := by
  have hc1 : g.bounds_check (o.getD p).1 (o.getD p).2 = true ∧
      adjEq p (o.getD p) = true := by
    cases o with
    | none => exact ⟨hp, adjEq_refl p⟩
    | some r =>
      exact sampleGrid_adjacent_mem g p hW hH hp r (ho r rfl)
  unfold sampleStarBump
  by_cases hgt : scratchGet g.width g.height g.groundTruth (o.getD p).1
      (o.getD p).2 = true
  · rw [if_pos hgt]
    exact hc1
  · rw [if_neg hgt]
    exact ⟨hp, adjEq_refl p⟩

theorem sampleStarStep_inv (g : SampleGrid) (goal start : ℕ × ℕ)
    (f : List (ℕ × ℕ) → Option (ℕ × ℕ))
    (hW : g.width < usizeSize) (hH : g.height < usizeSize)
    (hf : ∀ l r, f l = some r → r ∈ l) (s : SampleStarState)
    (h1 : s.final_path.head? = some start)
    (h2 : s.final_path.getLast? = some s.current)
    (h3 : List.Chain' (fun a b => adjEq a b = true) s.final_path)
    (h4 : g.bounds_check s.current.1 s.current.2 = true) :
    (sampleStarStep g goal f s).2.final_path.head? = some start ∧
    (sampleStarStep g goal f s).2.final_path.getLast? =
      some (sampleStarStep g goal f s).2.current ∧
    List.Chain' (fun a b => adjEq a b = true)
      (sampleStarStep g goal f s).2.final_path ∧
    g.bounds_check (sampleStarStep g goal f s).2.current.1
      (sampleStarStep g goal f s).2.current.2 = true := by
  unfold sampleStarStep
  by_cases hc : s.current = goal
  · rw [if_pos hc]
    exact ⟨h1, h2, h3, h4⟩
  · rw [if_neg hc]
    dsimp only
    have hc2 := sampleStar_choice_ok g hW hH s.current h4
      (f (g.adjacent s.current.1 s.current.2 false))
      (fun r h => hf _ r h)
    refine ⟨?_, List.getLast?_concat _, ?_, hc2.1⟩
    · cases hfp : s.final_path with
      | nil =>
        rw [hfp] at h1
        exact absurd h1 (by simp)
      | cons a t =>
        rw [hfp] at h1
        simpa using h1
    · rw [List.chain'_append]
      refine ⟨h3, List.chain'_singleton _, ?_⟩
      intro u hu v hv
      rw [h2] at hu
      simp only [Option.mem_def, Option.some_inj, List.head?_cons] at hu hv
      subst hu
      subst hv
      exact hc2.2

theorem sampleStarRun_inv (g : SampleGrid) (goal start : ℕ × ℕ)
    (hW : g.width < usizeSize) (hH : g.height < usizeSize) :
    ∀ (fs : List (List (ℕ × ℕ) → Option (ℕ × ℕ))) (s : SampleStarState),
      (∀ f ∈ fs, ∀ l r, f l = some r → r ∈ l) →
      s.final_path.head? = some start →
      s.final_path.getLast? = some s.current →
      List.Chain' (fun a b => adjEq a b = true) s.final_path →
      g.bounds_check s.current.1 s.current.2 = true →
      ((sampleStarRun g goal fs s).final_path.head? = some start ∧
       (sampleStarRun g goal fs s).final_path.getLast? =
         some (sampleStarRun g goal fs s).current ∧
       List.Chain' (fun a b => adjEq a b = true)
         (sampleStarRun g goal fs s).final_path ∧
       g.bounds_check (sampleStarRun g goal fs s).current.1
         (sampleStarRun g goal fs s).current.2 = true) := by
  intro fs
  induction fs with
  | nil =>
    intro s _ h1 h2 h3 h4
    exact ⟨h1, h2, h3, h4⟩
  | cons f rest ih =>
    intro s hfs h1 h2 h3 h4
    have hstep := sampleStarStep_inv g goal start f hW hH
      (hfs f (List.mem_cons_self f rest)) s h1 h2 h3 h4
    have hrest := ih (sampleStarStep g goal f s).2
      (fun f' hf' => hfs f' (List.mem_cons_of_mem f hf'))
      hstep.1 hstep.2.1 hstep.2.2.1 hstep.2.2.2
    exact hrest

/-- C2: for every `SampleStar` instance with in-bounds start (the
constructor's assertion) on a grid of `usize` dimensions, after any number
of `step` calls — each consulting a path store whose `next_node` returns a
member of the candidate list, as both crate `PathStore` implementations
do — `final_path` starts with `start`, every two consecutive cells of
`final_path` are equal or 4-adjacent, and whenever a further `step` would
return `true` (done), the last element of `final_path` is the goal. -/
theorem sampleStar_final_path_props (g : SampleGrid) (start goal : ℕ × ℕ)
    (fs : List (List (ℕ × ℕ) → Option (ℕ × ℕ)))
    (hW : g.width < usizeSize) (hH : g.height < usizeSize)
    (hs : g.bounds_check start.1 start.2 = true)
    (hfs : ∀ f ∈ fs, ∀ l r, f l = some r → r ∈ l) :
    (sampleStarRun g goal fs (sampleStarNew start)).final_path.head? =
      some start ∧
    List.Chain' (fun a b => adjEq a b = true)
      (sampleStarRun g goal fs (sampleStarNew start)).final_path ∧
    ∀ f, (sampleStarStep g goal f
        (sampleStarRun g goal fs (sampleStarNew start))).1 = true →
      (sampleStarRun g goal fs (sampleStarNew start)).final_path.getLast? =
        some goal := by
  have hinv := sampleStarRun_inv g goal start hW hH fs (sampleStarNew start)
    hfs rfl rfl (List.chain'_singleton start) hs
  refine ⟨hinv.1, hinv.2.2.1, ?_⟩
  intro f hdone
  by_cases hc : (sampleStarRun g goal fs (sampleStarNew start)).current = goal
  · rw [hinv.2.1, hc]
  · unfold sampleStarStep at hdone
    rw [if_neg hc] at hdone
    exact absurd hdone (by simp)

theorem sampleStar_final_path_props_witness :
    (sampleStarWitnessGrid.width < usizeSize ∧
     sampleStarWitnessGrid.height < usizeSize ∧
     sampleStarWitnessGrid.bounds_check 0 0 = true ∧
     (∀ f ∈ ([fun _ => none] : List (List (ℕ × ℕ) → Option (ℕ × ℕ))),
       ∀ l r, f l = some r → r ∈ l)) ∧
    ((sampleStarRun sampleStarWitnessGrid (0, 0) [fun _ => none]
        (sampleStarNew (0, 0))).final_path.head? = some (0, 0) ∧
     List.Chain' (fun a b => adjEq a b = true)
       (sampleStarRun sampleStarWitnessGrid (0, 0) [fun _ => none]
         (sampleStarNew (0, 0))).final_path ∧
     ∀ f, (sampleStarStep sampleStarWitnessGrid (0, 0) f
         (sampleStarRun sampleStarWitnessGrid (0, 0) [fun _ => none]
           (sampleStarNew (0, 0)))).1 = true →
       (sampleStarRun sampleStarWitnessGrid (0, 0) [fun _ => none]
         (sampleStarNew (0, 0))).final_path.getLast? = some (0, 0)) := by
  have hW : sampleStarWitnessGrid.width < usizeSize := by
    norm_num [sampleStarWitnessGrid, usizeSize]
  have hH : sampleStarWitnessGrid.height < usizeSize := by
    norm_num [sampleStarWitnessGrid, usizeSize]
  have hs : sampleStarWitnessGrid.bounds_check 0 0 = true := rfl
  have hfs : ∀ f ∈ ([fun _ => none] : List (List (ℕ × ℕ) → Option (ℕ × ℕ))),
      ∀ l r, f l = some r → r ∈ l := by
    intro f hf l r h
    rw [List.mem_singleton] at hf
    subst hf
    exact absurd h (by simp)
  exact ⟨⟨hW, hH, hs, hfs⟩,
    sampleStar_final_path_props sampleStarWitnessGrid (0, 0) (0, 0)
      [fun _ => none] hW hH hs hfs⟩

theorem lookupA_insertA_self [DecidableEq N] (m : SearchMap N) (k : N)
    (v : Option N × ℕ) : lookupA (insertA m k v) k = some v := by
  unfold lookupA insertA
  rw [List.find?_cons_of_pos _ (by simp)]
  rfl

theorem lookupA_insertA_ne [DecidableEq N] (m : SearchMap N) (k : N)
    (v : Option N × ℕ) (k' : N) (h : k' ≠ k) :
    lookupA (insertA m k v) k' = lookupA m k' := by
  unfold lookupA insertA
  rw [List.find?_cons_of_neg _
    (by simp only [decide_eq_true_eq]; exact fun hh => h hh.symm)]
  congr 1
  induction m with
  | nil => rfl
  | cons e t ih =>
    by_cases he : e.1 = k
    · rw [List.filter_cons_of_neg (by simp [he]), ih,
        List.find?_cons_of_neg _ (by
          simp only [decide_eq_true_eq]
          exact fun hh => h (he.symm.trans hh).symm)]
    · rw [List.filter_cons_of_pos (by simp [he])]
      by_cases hp : e.1 = k'
      · rw [List.find?_cons_of_pos _ (by simp [hp]),
          List.find?_cons_of_pos _ (by simp [hp])]
      · rw [List.find?_cons_of_neg _ (by simp [hp]),
          List.find?_cons_of_neg _ (by simp [hp]), ih]

theorem lookupA_insertA_isSome [DecidableEq N] (m : SearchMap N) (k : N)
    (v : Option N × ℕ) (k' : N) (h : (lookupA m k').isSome) :
    (lookupA (insertA m k v) k').isSome := by
  by_cases he : k' = k
  · subst he
    rw [lookupA_insertA_self]
    rfl
  · rw [lookupA_insertA_ne m k v k' he]
    exact h

theorem lookupA_singleton [DecidableEq N] (k : N) (v : Option N × ℕ) (n : N) :
    lookupA [(k, v)] n = if n = k then some v else none := by
  unfold lookupA
  by_cases h : k = n
  · subst h
    rw [List.find?_cons_of_pos _ (by simp), if_pos rfl]
    rfl
  · rw [List.find?_cons_of_neg _ (by simp [h]),
      if_neg (fun hh => h hh.symm)]
    rfl

theorem lookupA_isSome_of_mem [DecidableEq N] (m : SearchMap N)
    (e : N × (Option N × ℕ)) (he : e ∈ m) : (lookupA m e.1).isSome := by
  unfold lookupA
  have hf : (List.find? (fun x => decide (x.1 = e.1)) m).isSome :=
    List.find?_isSome.mpr ⟨e, he, by simp⟩
  rcases Option.isSome_iff_exists.mp hf with ⟨a, ha⟩
  rw [ha]
  rfl

/-- The parent map is rooted at `start`: `start` is the only parentless
entry and every stored parent is itself mapped. -/
def rootedMap [DecidableEq N] (start : N) (m : SearchMap N) : Prop :=
  (∀ n pv, lookupA m n = some pv → pv.1 = none → n = start) ∧
  (∀ n p c, lookupA m n = some (some p, c) → (lookupA m p).isSome)

/-- Every node sitting in the open heap is mapped. -/
def openInv [DecidableEq N] (m : SearchMap N) (ol : List (SearchNode N)) :
    Prop :=
  ∀ sn ∈ ol, (lookupA m sn.node).isSome

theorem relaxChild_inv [DecidableEq N] (h : N → ℕ) (node : N) (start : N)
    (acc : SearchMap N × List (SearchNode N)) (cc : N × ℕ)
    (hn : (lookupA acc.1 node).isSome) (hr : rootedMap start acc.1)
    (ho : openInv acc.1 acc.2) :
    (lookupA (relaxChild h node acc cc).1 node).isSome ∧
    rootedMap start (relaxChild h node acc cc).1 ∧
    openInv (relaxChild h node acc cc).1 (relaxChild h node acc cc).2 := by
  have key : ∀ (nc : ℕ),
      (lookupA (insertA acc.1 cc.1 (some node, nc)) node).isSome ∧
      rootedMap start (insertA acc.1 cc.1 (some node, nc)) ∧
      openInv (insertA acc.1 cc.1 (some node, nc))
        (acc.2 ++ [⟨cc.1, nc + h cc.1⟩]) := by
    intro nc
    refine ⟨lookupA_insertA_isSome _ _ _ _ hn, ⟨?_, ?_⟩, ?_⟩
    · intro n pv hl hnone
      by_cases he : n = cc.1
      · subst he
        rw [lookupA_insertA_self] at hl
        cases hl
        cases hnone
      · rw [lookupA_insertA_ne _ _ _ _ he] at hl
        exact hr.1 n pv hl hnone
    · intro n p c hl
      by_cases he : n = cc.1
      · subst he
        rw [lookupA_insertA_self] at hl
        cases hl
        exact lookupA_insertA_isSome _ _ _ _ hn
      · rw [lookupA_insertA_ne _ _ _ _ he] at hl
        exact lookupA_insertA_isSome _ _ _ _ (hr.2 n p c hl)
    · intro sn hsn
      rw [List.mem_append] at hsn
      rcases hsn with hsn | hsn
      · exact lookupA_insertA_isSome _ _ _ _ (ho sn hsn)
      · rw [List.mem_singleton] at hsn
        subst hsn
        rw [lookupA_insertA_self]
        rfl
  cases hl : lookupA acc.1 cc.1 with
  | none =>
    have hred : relaxChild h node acc cc =
        (insertA acc.1 cc.1 (some node,
          ((lookupA acc.1 node).getD (none, 0)).2 + cc.2),
         acc.2 ++ [⟨cc.1, ((lookupA acc.1 node).getD (none, 0)).2 + cc.2 +
           h cc.1⟩]) := by
      simp only [relaxChild, hl]
    rw [hred]
    exact key _
  | some old =>
    by_cases hlt : ((lookupA acc.1 node).getD (none, 0)).2 + cc.2 < old.2
    · have hred : relaxChild h node acc cc =
          (insertA acc.1 cc.1 (some node,
            ((lookupA acc.1 node).getD (none, 0)).2 + cc.2),
           acc.2 ++ [⟨cc.1, ((lookupA acc.1 node).getD (none, 0)).2 + cc.2 +
             h cc.1⟩]) := by
        simp only [relaxChild, hl, if_pos hlt]
      rw [hred]
      exact key _
    · have hred : relaxChild h node acc cc = acc := by
        simp only [relaxChild, hl, if_neg hlt]
      rw [hred]
      exact ⟨hn, hr, ho⟩

theorem relaxFold_inv [DecidableEq N] (h : N → ℕ) (node : N) (start : N) :
    ∀ (cs : List (N × ℕ)) (acc : SearchMap N × List (SearchNode N)),
      (lookupA acc.1 node).isSome → rootedMap start acc.1 →
      openInv acc.1 acc.2 →
      ((lookupA (cs.foldl (relaxChild h node) acc).1 node).isSome ∧
       rootedMap start (cs.foldl (relaxChild h node) acc).1 ∧
       openInv (cs.foldl (relaxChild h node) acc).1
         (cs.foldl (relaxChild h node) acc).2) := by
  intro cs
  induction cs with
  | nil => intro acc hn hr ho; exact ⟨hn, hr, ho⟩
  | cons c rest ih =>
    intro acc hn hr ho
    rw [List.foldl_cons]
    have hstep := relaxChild_inv h node start acc c hn hr ho
    exact ih (relaxChild h node acc c) hstep.1 hstep.2.1 hstep.2.2

theorem popMin_mem : ∀ (l : List (SearchNode N)) (x : SearchNode N)
    (r : List (SearchNode N)), popMin l = some (x, r) →
    x ∈ l ∧ ∀ y ∈ r, y ∈ l := by
  intro l
  induction l with
  | nil => intro x r hx; cases hx
  | cons a t ih =>
    intro x r hx
    unfold popMin at hx
    cases hp : popMin t with
    | none =>
      rw [hp] at hx
      cases hx
      exact ⟨List.mem_cons_self a t, by intro y hy; cases hy⟩
    | some mr =>
      rw [hp] at hx
      obtain ⟨m, rest⟩ := mr
      have hm := ih m rest hp
      have hx' : (if a.cost ≤ m.cost then some (a, t)
          else some (m, a :: rest)) = some (x, r) := hx
      by_cases hc : a.cost ≤ m.cost
      · rw [if_pos hc] at hx'
        cases hx'
        exact ⟨List.mem_cons_self a t, fun y hy => List.mem_cons_of_mem a hy⟩
      · rw [if_neg hc] at hx'
        cases hx'
        refine ⟨List.mem_cons_of_mem a hm.1, ?_⟩
        intro y hy
        rcases List.mem_cons.mp hy with hy | hy
        · rw [hy]; exact List.mem_cons_self a t
        · exact List.mem_cons_of_mem a (hm.2 y hy)

theorem astarLoop_inv [DecidableEq N] (h : N → ℕ) (exp : N → List (N × ℕ))
    (goalp : N → Bool) (start : N) :
    ∀ (fuel : ℕ) (m : SearchMap N) (ol : List (SearchNode N)),
      rootedMap start m → openInv m ol →
      ∀ (m' : SearchMap N) (og : Option N),
        astarLoop h exp goalp fuel (m, ol) = some (m', og) →
        rootedMap start m' ∧ ∀ g, og = some g → (lookupA m' g).isSome := by
  intro fuel
  induction fuel with
  | zero =>
    intro m ol _ _ m' og heq
    cases heq
  | succ fuel ih =>
    intro m ol hr ho m' og heq
    unfold astarLoop at heq
    cases hp : popMin ol with
    | none =>
      rw [hp] at heq
      have heq' : some (m, (none : Option N)) = some (m', og) := heq
      cases heq'
      exact ⟨hr, by intro g hg; cases hg⟩
    | some snrest =>
      rw [hp] at heq
      obtain ⟨sn, rest⟩ := snrest
      have heq' : (if goalp sn.node = true then some (m, some sn.node)
          else astarLoop h exp goalp fuel
            ((exp sn.node).foldl (relaxChild h sn.node) (m, rest))) =
          some (m', og) := heq
      have hmem := popMin_mem ol sn rest hp
      by_cases hg : goalp sn.node = true
      · rw [if_pos hg] at heq'
        cases heq'
        exact ⟨hr, by intro g hgg; cases hgg; exact ho sn hmem.1⟩
      · rw [if_neg hg] at heq'
        have hfold := relaxFold_inv h sn.node start (exp sn.node) (m, rest)
          (ho sn hmem.1) hr (fun y hy => ho y (hmem.2 y hy))
        exact ih _ _ hfold.2.1 hfold.2.2 m' og heq'

theorem minByKey_mem : ∀ (l : List (α × ℕ)) (x : α × ℕ),
    minByKey l = some x → x ∈ l := by
  intro l
  induction l with
  | nil => intro x hx; cases hx
  | cons a t ih =>
    intro x hx
    unfold minByKey at hx
    cases hp : minByKey t with
    | none =>
      rw [hp] at hx
      have hx' : some a = some x := hx
      cases hx'
      exact List.mem_cons_self a t
    | some m =>
      rw [hp] at hx
      have hx' : (if a.2 ≤ m.2 then some a else some m) = some x := hx
      by_cases hc : a.2 ≤ m.2
      · rw [if_pos hc] at hx'
        cases hx'
        exact List.mem_cons_self a t
      · rw [if_neg hc] at hx'
        cases hx'
        exact List.mem_cons_of_mem a (ih _ hp)

theorem reconstructLoop_shape [DecidableEq N] (m : SearchMap N) (start : N)
    (hr : rootedMap start m) :
    ∀ (fuel : ℕ) (n : N) (p : List N), (lookupA m n).isSome →
      reconstructLoop m fuel n = some p →
      p ≠ [] ∧ p.head? = some start ∧ p.getLast? = some n := by
  intro fuel
  induction fuel with
  | zero =>
    intro n p _ hp
    cases hp
  | succ fuel ih =>
    intro n p hn hp
    unfold reconstructLoop at hp
    cases hl : lookupA m n with
    | none =>
      rw [hl] at hn
      cases hn
    | some pv =>
      rw [hl] at hp
      obtain ⟨pp, pc⟩ := pv
      cases pp with
      | none =>
        have hp' : some [n] = some p := hp
        cases hp'
        have hstart : n = start := hr.1 n (none, pc) hl rfl
        subst hstart
        exact ⟨by simp, rfl, rfl⟩
      | some prev =>
        have hp' : (reconstructLoop m fuel prev).map (fun q => q ++ [n]) =
            some p := hp
        cases hq : reconstructLoop m fuel prev with
        | none =>
          rw [hq] at hp'
          cases hp'
        | some q =>
          rw [hq] at hp'
          have hp'' : some (q ++ [n]) = some p := hp'
          cases hp''
          have hprev : (lookupA m prev).isSome := hr.2 n prev pc hl
          have hih := ih prev q hprev hq
          refine ⟨by simp, ?_, List.getLast?_concat _⟩
          cases hqq : q with
          | nil =>
            rw [hqq] at hih
            exact absurd rfl hih.1
          | cons b u =>
            rw [hqq] at hih
            simpa using hih.2.1

/-- C1 counterexample: with an expander that returns no children and a goal
predicate that never fires, `_search` finishes normally with only the start
(parentless) in the map, and `best_search` then filters out every entry and
`unwrap`s an empty minimum — a panic, `none` in the model — instead of
returning the path `[start]`. -/
theorem bestSearch_start_only_panics :
    astar_search (fun _ : ℕ => 0) (fun _ => []) (fun _ => false) 0 2 =
      some ([(0, (none, 0))], none) ∧
    best_search (fun _ : ℕ => 0) (fun _ => 0) (fun _ => [])
      (fun _ => false) 0 2 1 = none :=
  ⟨rfl, rfl⟩

/-- C1 (amended): whenever `best_search` does return a pair — the goal was
reached, or the filtered parent map was non-empty so the `unwrap` did not
panic, with any sufficient fuel — the returned path is non-empty and starts
at the start node. -/
theorem best_search_some_shape [DecidableEq N] (h hb : N → ℕ)
    (exp : N → List (N × ℕ)) (goalp : N → Bool) (start : N)
    (fuel rfuel : ℕ) (p : List N) (c : ℕ)
    (hres : best_search h hb exp goalp start fuel rfuel = some (p, c)) :
    p ≠ [] ∧ p.head? = some start := by
  have hroot0 : rootedMap start [(start, (none, 0))] := by
    constructor
    · intro n pv hl _
      rw [lookupA_singleton] at hl
      by_cases he : n = start
      · exact he
      · rw [if_neg he] at hl
        cases hl
    · intro n q c0 hl
      rw [lookupA_singleton] at hl
      by_cases he : n = start
      · rw [if_pos he] at hl
        cases hl
      · rw [if_neg he] at hl
        cases hl
  have hopen0 : openInv [(start, (none, 0))] [⟨start, h start⟩] := by
    intro sn hsn
    rw [List.mem_singleton] at hsn
    subst hsn
    rw [lookupA_singleton, if_pos rfl]
    rfl
  unfold best_search at hres
  cases hs : astar_search h exp goalp start fuel with
  | none =>
    rw [hs] at hres
    cases hres
  | some r =>
    rw [hs] at hres
    obtain ⟨distances, og⟩ := r
    have hinv := astarLoop_inv h exp goalp start fuel _ _ hroot0 hopen0
      distances og hs
    cases og with
    | some g =>
      have hres2 : (match lookupA distances g,
          reconstructLoop distances rfuel g with
        | some pv, some q => some (q, pv.2)
        | _, _ => none) = some (p, c) := hres
      cases hl : lookupA distances g with
      | none =>
        rw [hl] at hres2
        cases hrl : reconstructLoop distances rfuel g with
        | none => rw [hrl] at hres2; cases hres2
        | some q => rw [hrl] at hres2; cases hres2
      | some pv =>
        cases hrl : reconstructLoop distances rfuel g with
        | none =>
          rw [hl, hrl] at hres2
          cases hres2
        | some q =>
          rw [hl, hrl] at hres2
          have hres3 : some (q, pv.2) = some (p, c) := hres2
          have hqp : q = p := congrArg Prod.fst (Option.some_inj.mp hres3)
          subst hqp
          have hsh := reconstructLoop_shape distances start hinv.1 rfuel g q
            (by rw [hl]; rfl) hrl
          exact ⟨hsh.1, hsh.2.1⟩
    | none =>
      have hres2 : (match minByKey (distances.filterMap fun e =>
          match e.2.1 with
          | some _ => some (e.1, hb e.1)
          | none => none) with
        | none => none
        | some (bn, c0) =>
          (reconstructLoop distances rfuel bn).map fun q => (q, c0)) =
          some (p, c) := hres
      cases hmin : minByKey (distances.filterMap fun e =>
          match e.2.1 with
          | some _ => some (e.1, hb e.1)
          | none => none) with
      | none =>
        rw [hmin] at hres2
        cases hres2
      | some bc =>
        rw [hmin] at hres2
        obtain ⟨bn, c0⟩ := bc
        have hres3 : (reconstructLoop distances rfuel bn).map
            (fun q => (q, c0)) = some (p, c) := hres2
        cases hrl : reconstructLoop distances rfuel bn with
        | none =>
          rw [hrl] at hres3
          cases hres3
        | some q =>
          rw [hrl] at hres3
          have hres4 : some (q, c0) = some (p, c) := hres3
          have hqp : q = p := congrArg Prod.fst (Option.some_inj.mp hres4)
          subst hqp
          have hbmem := minByKey_mem _ _ hmin
          rw [List.mem_filterMap] at hbmem
          obtain ⟨e, hem, hfe⟩ := hbmem
          have hbn : (lookupA distances bn).isSome := by
            cases hpe : e.2.1 with
            | none =>
              rw [hpe] at hfe
              cases hfe
            | some par =>
              rw [hpe] at hfe
              have hfe' : some (e.1, hb e.1) = some (bn, c0) := hfe
              have hfe2 : e.1 = bn := congrArg Prod.fst (Option.some_inj.mp hfe')
              rw [← hfe2]
              exact lookupA_isSome_of_mem distances e hem
          have hsh := reconstructLoop_shape distances start hinv.1 rfuel bn q
            hbn hrl
          exact ⟨hsh.1, hsh.2.1⟩

theorem best_search_some_shape_witness :
    best_search (fun _ : ℕ => 0) (fun _ => 0) (fun _ => [])
      (fun n => decide (n = 0)) 0 1 1 = some ([0], 0) ∧
    ([0] : List ℕ) ≠ [] ∧ ([0] : List ℕ).head? = some 0 :=
  ⟨rfl, best_search_some_shape (fun _ => 0) (fun _ => 0) (fun _ => [])
    (fun n => decide (n = 0)) 0 1 1 [0] 0 (by rfl)⟩

theorem CostedPath.snoc {e : N → List (N × ℕ)} {a u : N} {q : List N} {c : ℕ}
    (hp : CostedPath e a q u c) {v : N} {w : ℕ} (he : (v, w) ∈ e u) :
    CostedPath e a (q ++ [v]) v (c + w) := by
  revert he
  induction hp with
  | single x =>
    intro he
    simpa using CostedPath.cons x v v w 0 [v] he (CostedPath.single v)
  | cons x b z wv cv p hedge hpath ih =>
    intro he
    have h2 := ih he
    have h3 := CostedPath.cons x b v wv (cv + w) (p ++ [v]) hedge h2
    simpa [Nat.add_assoc] using h3

theorem CostedPath.head_ne_nil {e : N → List (N × ℕ)} {a z : N} {q : List N}
    {c : ℕ} (hp : CostedPath e a q z c) : q.head? = some a ∧ q ≠ [] := by
  cases hp with
  | single => exact ⟨rfl, by simp⟩
  | cons a b z w c p hedge hpath => exact ⟨rfl, by simp⟩

theorem heuristic_telescope {e : N → List (N × ℕ)} {h : N → ℕ}
    (hcons : ∀ n, ∀ cw ∈ e n, h n ≤ cw.2 + h cw.1) {u z : N} {q : List N}
    {c : ℕ} (hp : CostedPath e u q z c) : h u ≤ c + h z := by
  induction hp with
  | single x => simp
  | cons a b z w cv p hedge hpath ih =>
    have h1 : h a ≤ w + h b := hcons a (b, w) hedge
    omega

theorem popMin_eq_none : ∀ (l : List (SearchNode N)),
    popMin l = none ↔ l = [] := by
  intro l
  cases l with
  | nil => simp [popMin]
  | cons a t =>
    constructor
    · intro hp
      unfold popMin at hp
      cases ht : popMin t with
      | none => rw [ht] at hp; cases hp
      | some mr =>
        rw [ht] at hp
        obtain ⟨m, rest⟩ := mr
        have hp' : (if a.cost ≤ m.cost then some (a, t)
            else some (m, a :: rest)) = none := hp
        by_cases hc : a.cost ≤ m.cost
        · rw [if_pos hc] at hp'; cases hp'
        · rw [if_neg hc] at hp'; cases hp'
    · intro hl; cases hl

theorem popMin_perm : ∀ (l : List (SearchNode N)) (x : SearchNode N)
    (r : List (SearchNode N)), popMin l = some (x, r) → l.Perm (x :: r) := by
  intro l
  induction l with
  | nil => intro x r hx; cases hx
  | cons a t ih =>
    intro x r hx
    unfold popMin at hx
    cases hp : popMin t with
    | none =>
      rw [hp] at hx
      have hx' : some (a, ([] : List (SearchNode N))) = some (x, r) := hx
      have h1 := Option.some_inj.mp hx'
      have hxa : a = x := congrArg Prod.fst h1
      have hrt : ([] : List (SearchNode N)) = r := congrArg Prod.snd h1
      have ht : t = [] := (popMin_eq_none t).mp hp
      subst ht
      rw [← hxa, ← hrt]
    | some mr =>
      rw [hp] at hx
      obtain ⟨m, rest⟩ := mr
      have hx' : (if a.cost ≤ m.cost then some (a, t)
          else some (m, a :: rest)) = some (x, r) := hx
      by_cases hc : a.cost ≤ m.cost
      · rw [if_pos hc] at hx'
        have h1 := Option.some_inj.mp hx'
        have hxa : a = x := congrArg Prod.fst h1
        have hrt : t = r := congrArg Prod.snd h1
        rw [← hxa, ← hrt]
      · rw [if_neg hc] at hx'
        have h1 := Option.some_inj.mp hx'
        have hxm : m = x := congrArg Prod.fst h1
        have hra : a :: rest = r := congrArg Prod.snd h1
        rw [← hxm, ← hra]
        have hperm := ih m rest hp
        exact (hperm.cons a).trans (List.Perm.swap m a rest)

theorem popMin_min : ∀ (l : List (SearchNode N)) (x : SearchNode N)
    (r : List (SearchNode N)), popMin l = some (x, r) →
    ∀ y ∈ l, x.cost ≤ y.cost := by
  intro l
  induction l with
  | nil => intro x r hx; cases hx
  | cons a t ih =>
    intro x r hx y hy
    unfold popMin at hx
    cases hp : popMin t with
    | none =>
      rw [hp] at hx
      have hx' : some (a, ([] : List (SearchNode N))) = some (x, r) := hx
      have hxa : a = x := congrArg Prod.fst (Option.some_inj.mp hx')
      have ht : t = [] := (popMin_eq_none t).mp hp
      subst ht
      rw [← hxa]
      rcases List.mem_cons.mp hy with hy2 | hy2
      · simp [hy2]
      · cases hy2
    | some mr =>
      rw [hp] at hx
      obtain ⟨m, rest⟩ := mr
      have hx' : (if a.cost ≤ m.cost then some (a, t)
          else some (m, a :: rest)) = some (x, r) := hx
      by_cases hc : a.cost ≤ m.cost
      · rw [if_pos hc] at hx'
        have hxa : a = x := congrArg Prod.fst (Option.some_inj.mp hx')
        rw [← hxa]
        rcases List.mem_cons.mp hy with hy2 | hy2
        · simp [hy2]
        · exact le_trans hc (ih m rest hp y hy2)
      · rw [if_neg hc] at hx'
        have hxm : m = x := congrArg Prod.fst (Option.some_inj.mp hx')
        rw [← hxm]
        rcases List.mem_cons.mp hy with hy2 | hy2
        · rw [hy2]; omega
        · exact ih m rest hp y hy2

theorem relaxChild_cases [DecidableEq N] (h : N → ℕ) (u : N)
    (acc : SearchMap N × List (SearchNode N)) (cc : N × ℕ) :
    (relaxChild h u acc cc = acc ∧
      ∃ old, lookupA acc.1 cc.1 = some old ∧
        ¬(((lookupA acc.1 u).getD (none, 0)).2 + cc.2 < old.2)) ∨
    ((∀ old, lookupA acc.1 cc.1 = some old →
        ((lookupA acc.1 u).getD (none, 0)).2 + cc.2 < old.2) ∧
      relaxChild h u acc cc =
        (insertA acc.1 cc.1
          (some u, ((lookupA acc.1 u).getD (none, 0)).2 + cc.2),
         acc.2 ++
           [⟨cc.1, ((lookupA acc.1 u).getD (none, 0)).2 + cc.2 + h cc.1⟩])) := by
  cases hl : lookupA acc.1 cc.1 with
  | none =>
    right
    refine ⟨fun old hold => ?_, ?_⟩
    · cases hold
    · simp only [relaxChild, hl]
  | some old =>
    by_cases hlt : ((lookupA acc.1 u).getD (none, 0)).2 + cc.2 < old.2
    · right
      refine ⟨fun old' hold' => ?_, ?_⟩
      · have hoo : old = old' := Option.some_inj.mp hold'
        rw [← hoo]
        exact hlt
      · simp only [relaxChild, hl, if_pos hlt]
    · left
      refine ⟨?_, old, rfl, hlt⟩
      simp only [relaxChild, hl, if_neg hlt]

theorem relaxInsert_preserve [DecidableEq N] (h : N → ℕ)
    (e : N → List (N × ℕ)) (goalp : N → Bool) (start : N) (nodes : List N)
    (m : SearchMap N) (ol : List (SearchNode N)) (u v : N) (w : ℕ)
    (pu : Option N × ℕ)
    (hu : lookupA m u = some pu)
    (hedge : (v, w) ∈ e u)
    (hvlt : ∀ old, lookupA m v = some old → pu.2 + w < old.2)
    (hsz : startZero start m) (hgs : gSound e start m)
    (hge : heapGE h m ol) (hgo : goalsOpen h goalp m ol)
    (hpe : parentEdge e m) (hki : keysIn nodes m ol)
    (hvin : v ∈ nodes) :
    lookupA (insertA m v (some u, pu.2 + w)) u = some pu ∧
    startZero start (insertA m v (some u, pu.2 + w)) ∧
    gSound e start (insertA m v (some u, pu.2 + w)) ∧
    heapGE h (insertA m v (some u, pu.2 + w))
      (ol ++ [⟨v, pu.2 + w + h v⟩]) ∧
    goalsOpen h goalp (insertA m v (some u, pu.2 + w))
      (ol ++ [⟨v, pu.2 + w + h v⟩]) ∧
    parentEdge e (insertA m v (some u, pu.2 + w)) ∧
    keysIn nodes (insertA m v (some u, pu.2 + w))
      (ol ++ [⟨v, pu.2 + w + h v⟩]) ∧
    (∀ n pv, lookupA m n = some pv →
      ∃ pv', lookupA (insertA m v (some u, pu.2 + w)) n = some pv' ∧
        pv'.2 ≤ pv.2) := by
  have hvu : u ≠ v := by
    intro heq
    have hcon := hvlt pu (by rw [← heq]; exact hu)
    omega
  have hlookv : lookupA (insertA m v (some u, pu.2 + w)) v =
      some (some u, pu.2 + w) := lookupA_insertA_self m v _
  have hlooku : lookupA (insertA m v (some u, pu.2 + w)) u = some pu := by
    rw [lookupA_insertA_ne m v _ u hvu]
    exact hu
  have hmono : ∀ n pv, lookupA m n = some pv →
      ∃ pv', lookupA (insertA m v (some u, pu.2 + w)) n = some pv' ∧
        pv'.2 ≤ pv.2 := by
    intro n pv hl
    by_cases hn : n = v
    · subst hn
      refine ⟨(some u, pu.2 + w), hlookv, ?_⟩
      have := hvlt pv hl
      omega
    · exact ⟨pv, by rw [lookupA_insertA_ne m v _ n hn]; exact hl, le_refl _⟩
  refine ⟨hlooku, ?_, ?_, ?_, ?_, ?_, ?_, hmono⟩
  · obtain ⟨par, hs⟩ := hsz
    by_cases hsv : start = v
    · have := hvlt (par, 0) (by rw [← hsv]; exact hs)
      omega
    · exact ⟨par, by rw [lookupA_insertA_ne m v _ start hsv]; exact hs⟩
  · intro n pv hl
    by_cases hn : n = v
    · subst hn
      rw [hlookv] at hl
      have hpv : ((some u : Option N), pu.2 + w) = pv := Option.some_inj.mp hl
      obtain ⟨q, hq⟩ := hgs u pu hu
      refine ⟨q ++ [n], ?_⟩
      rw [← hpv]
      exact hq.snoc hedge
    · rw [lookupA_insertA_ne m v _ n hn] at hl
      exact hgs n pv hl
  · intro sn hsn
    rw [List.mem_append] at hsn
    rcases hsn with hsn | hsn
    · obtain ⟨pv, hpv, hle⟩ := hge sn hsn
      obtain ⟨pv', hpv', hle'⟩ := hmono sn.node pv hpv
      exact ⟨pv', hpv', by omega⟩
    · rw [List.mem_singleton] at hsn
      subst hsn
      exact ⟨(some u, pu.2 + w), hlookv, le_refl _⟩
  · intro n pv hl hgoal
    by_cases hn : n = v
    · subst hn
      rw [hlookv] at hl
      have hpv : ((some u : Option N), pu.2 + w) = pv := Option.some_inj.mp hl
      refine ⟨⟨n, pu.2 + w + h n⟩, by simp, rfl, ?_⟩
      rw [← hpv]
    · rw [lookupA_insertA_ne m v _ n hn] at hl
      obtain ⟨sn, hsn, hnode, hcost⟩ := hgo n pv hl hgoal
      exact ⟨sn, List.mem_append_left _ hsn, hnode, hcost⟩
  · obtain ⟨s, hs⟩ := hpe
    refine ⟨fun x => if x = v then s u + 1 else s x, ?_⟩
    intro n p cn hl
    by_cases hn : n = v
    · subst hn
      rw [hlookv] at hl
      have hinj := Option.some_inj.mp hl
      have hp : (some u : Option N) = some p := congrArg Prod.fst hinj
      have hcn : pu.2 + w = cn := congrArg Prod.snd hinj
      have hpu : u = p := Option.some_inj.mp hp
      subst hpu
      refine ⟨w, pu, hedge, hlooku, by omega, ?_⟩
      by_cases hw : pu.2 < cn
      · exact Or.inl hw
      · refine Or.inr ⟨by omega, ?_⟩
        dsimp only
        rw [if_neg (fun hh => hvu hh), if_pos rfl]
        omega
    · rw [lookupA_insertA_ne m v _ n hn] at hl
      obtain ⟨w', pv, hedge', hlp, hle, hstrict⟩ := hs n p cn hl
      by_cases hp : p = v
      · subst hp
        have hnc := hvlt pv hlp
        refine ⟨w', (some u, pu.2 + w), hedge', hlookv, by omega, ?_⟩
        exact Or.inl (by omega)
      · refine ⟨w', pv, hedge', by
          rw [lookupA_insertA_ne m v _ p hp]; exact hlp, hle, ?_⟩
        rcases hstrict with hst | ⟨heq, hst⟩
        · exact Or.inl hst
        · refine Or.inr ⟨heq, ?_⟩
          dsimp only
          rw [if_neg hp, if_neg hn]
          exact hst
  · constructor
    · intro n pv hl
      by_cases hn : n = v
      · subst hn
        exact hvin
      · rw [lookupA_insertA_ne m v _ n hn] at hl
        exact hki.1 n pv hl
    · intro sn hsn
      rw [List.mem_append] at hsn
      rcases hsn with hsn | hsn
      · exact hki.2 sn hsn
      · rw [List.mem_singleton] at hsn
        subst hsn
        exact hvin

theorem relaxStep_preserve [DecidableEq N] (h : N → ℕ) (e : N → List (N × ℕ))
    (goalp : N → Bool) (start : N) (nodes : List N) (u : N)
    (done : List (N × ℕ)) (cc : N × ℕ)
    (acc : SearchMap N × List (SearchNode N)) (pu : Option N × ℕ)
    (hu : lookupA acc.1 u = some pu)
    (hedge : cc ∈ e u)
    (hccin : cc.1 ∈ nodes)
    (hb : astarBundle h e goalp start nodes acc.1 acc.2)
    (hrp : relaxPartial h e acc.1 acc.2 u done) :
    lookupA (relaxChild h u acc cc).1 u = some pu ∧
    astarBundle h e goalp start nodes (relaxChild h u acc cc).1
      (relaxChild h u acc cc).2 ∧
    relaxPartial h e (relaxChild h u acc cc).1 (relaxChild h u acc cc).2 u
      (done ++ [cc]) ∧
    (∀ n pv, lookupA acc.1 n = some pv →
      ∃ pv', lookupA (relaxChild h u acc cc).1 n = some pv' ∧
        pv'.2 ≤ pv.2) := by
  obtain ⟨hsz, hgs, hge, hgo, hpe, hki⟩ := hb
  have hgetd : ((lookupA acc.1 u).getD (none, 0)) = pu := by
    rw [hu]
    rfl
  rcases relaxChild_cases h u acc cc with ⟨heq, old, hold, hnlt⟩ |
      ⟨hvlt0, heq⟩
  · rw [heq]
    rw [hgetd] at hnlt
    refine ⟨hu, ⟨hsz, hgs, hge, hgo, hpe, hki⟩, ?_,
      fun n pv hl => ⟨pv, hl, le_refl _⟩⟩
    intro n pv hl
    rcases hrp n pv hl with hopen | hclosed | ⟨hnu, hdone⟩
    · exact Or.inl hopen
    · exact Or.inr (Or.inl hclosed)
    · refine Or.inr (Or.inr ⟨hnu, ?_⟩)
      intro cw hcw
      rw [List.mem_append] at hcw
      rcases hcw with hcw | hcw
      · exact hdone cw hcw
      · rw [List.mem_singleton] at hcw
        subst hcw
        have hpv : pv = pu := by
          rw [hnu] at hl
          exact Option.some_inj.mp (hl.symm.trans hu)
        refine ⟨old, hold, ?_⟩
        rw [hpv]
        omega
  · rw [hgetd] at hvlt0 heq
    have hins := relaxInsert_preserve h e goalp start nodes acc.1 acc.2 u
      cc.1 cc.2 pu hu hedge hvlt0 hsz hgs hge hgo hpe hki hccin
    obtain ⟨hlooku', hsz', hgs', hge', hgo', hpe', hki', hmono⟩ := hins
    rw [heq]
    refine ⟨hlooku', ⟨hsz', hgs', hge', hgo', hpe', hki'⟩, ?_, hmono⟩
    intro n pv' hl'
    by_cases hn : n = cc.1
    · subst hn
      rw [lookupA_insertA_self] at hl'
      have hpv' : ((some u : Option N), pu.2 + cc.2) = pv' :=
        Option.some_inj.mp hl'
      refine Or.inl ⟨⟨cc.1, pu.2 + cc.2 + h cc.1⟩, by simp, rfl, ?_⟩
      rw [← hpv']
    · rw [lookupA_insertA_ne _ _ _ _ hn] at hl'
      rcases hrp n pv' hl' with hopen | hclosed | ⟨hnu, hdone⟩
      · obtain ⟨sn, hsn, hnode, hcost⟩ := hopen
        exact Or.inl ⟨sn, List.mem_append_left _ hsn, hnode, hcost⟩
      · refine Or.inr (Or.inl ?_)
        intro cw hcw
        obtain ⟨cv, hcv, hle⟩ := hclosed cw hcw
        obtain ⟨cv', hcv', hle'⟩ := hmono cw.1 cv hcv
        exact ⟨cv', hcv', by omega⟩
      · refine Or.inr (Or.inr ⟨hnu, ?_⟩)
        intro cw hcw
        rw [List.mem_append] at hcw
        rcases hcw with hcw | hcw
        · obtain ⟨cv, hcv, hle⟩ := hdone cw hcw
          obtain ⟨cv', hcv', hle'⟩ := hmono cw.1 cv hcv
          exact ⟨cv', hcv', by omega⟩
        · rw [List.mem_singleton] at hcw
          subst hcw
          have hpv : pv' = pu := by
            rw [hnu] at hl'
            exact Option.some_inj.mp (hl'.symm.trans hu)
          refine ⟨(some u, pu.2 + cw.2), lookupA_insertA_self _ _ _, ?_⟩
          rw [hpv]

theorem relaxFoldC4 [DecidableEq N] (h : N → ℕ) (e : N → List (N × ℕ))
    (goalp : N → Bool) (start : N) (nodes : List N) (u : N) :
    ∀ (todo done : List (N × ℕ)) (acc : SearchMap N × List (SearchNode N))
      (pu : Option N × ℕ),
      done ++ todo = e u →
      (∀ cc ∈ todo, cc.1 ∈ nodes) →
      lookupA acc.1 u = some pu →
      astarBundle h e goalp start nodes acc.1 acc.2 →
      relaxPartial h e acc.1 acc.2 u done →
      (lookupA (todo.foldl (relaxChild h u) acc).1 u = some pu ∧
       astarBundle h e goalp start nodes (todo.foldl (relaxChild h u) acc).1
         (todo.foldl (relaxChild h u) acc).2 ∧
       relaxInv h e (todo.foldl (relaxChild h u) acc).1
         (todo.foldl (relaxChild h u) acc).2 ∧
       (∀ n pv, lookupA acc.1 n = some pv →
         ∃ pv', lookupA (todo.foldl (relaxChild h u) acc).1 n = some pv' ∧
           pv'.2 ≤ pv.2)) := by
  intro todo
  induction todo with
  | nil =>
    intro done acc pu happ _ hu hb hrp
    rw [List.append_nil] at happ
    refine ⟨hu, hb, ?_, fun n pv hl => ⟨pv, hl, le_refl _⟩⟩
    intro n pv hl
    rcases hrp n pv hl with hopen | hclosed | ⟨hnu, hdone⟩
    · exact Or.inl hopen
    · exact Or.inr hclosed
    · refine Or.inr ?_
      rw [hnu, ← happ]
      exact hdone
  | cons cc todo' ih =>
    intro done acc pu happ hin hu hb hrp
    rw [List.foldl_cons]
    have hccmem : cc ∈ e u := by
      rw [← happ]
      exact List.mem_append_right done (List.mem_cons_self cc todo')
    have hstep := relaxStep_preserve h e goalp start nodes u done cc acc pu
      hu hccmem (hin cc (List.mem_cons_self cc todo')) hb hrp
    have happ' : (done ++ [cc]) ++ todo' = e u := by
      rw [List.append_assoc]
      simpa using happ
    have hrec := ih (done ++ [cc]) (relaxChild h u acc cc) pu happ'
      (fun c hc => hin c (List.mem_cons_of_mem cc hc)) hstep.1 hstep.2.1
      hstep.2.2.1
    refine ⟨hrec.1, hrec.2.1, hrec.2.2.1, ?_⟩
    intro n pv hl
    obtain ⟨pv1, hpv1, hle1⟩ := hstep.2.2.2 n pv hl
    obtain ⟨pv2, hpv2, hle2⟩ := hrec.2.2.2 n pv1 hpv1
    exact ⟨pv2, hpv2, by omega⟩

theorem astar_cut [DecidableEq N] (h : N → ℕ) (e : N → List (N × ℕ))
    (hcons : ∀ n, ∀ cw ∈ e n, h n ≤ cw.2 + h cw.1)
    (m : SearchMap N) (ol : List (SearchNode N)) (hri : relaxInv h e m ol) :
    ∀ (u : N) (q : List N) (z : N) (cs : ℕ), CostedPath e u q z cs →
      ∀ (cu : ℕ) (uv : Option N × ℕ), lookupA m u = some uv → uv.2 ≤ cu →
      (∃ zv, lookupA m z = some zv ∧ zv.2 ≤ cu + cs) ∨
      (∃ sn ∈ ol, sn.cost ≤ cu + cs + h z) := by
  intro u q z cs hp
  induction hp with
  | single a =>
    intro cu uv hl hle
    exact Or.inl ⟨uv, hl, by omega⟩
  | cons a b z w cs' p hedge hpath ih =>
    intro cu uv hl hle
    rcases hri a uv hl with hopen | hclosed
    · obtain ⟨sn, hsn, _hnode, hcost⟩ := hopen
      refine Or.inr ⟨sn, hsn, ?_⟩
      have h1 : h a ≤ w + h b := hcons a (b, w) hedge
      have h2 : h b ≤ cs' + h z := heuristic_telescope hcons hpath
      omega
    · obtain ⟨cv, hcv, hle'⟩ := hclosed (b, w) hedge
      rcases ih (cu + w) cv hcv (by omega) with ⟨zv, hzv, hzle⟩ |
          ⟨sn, hsn, hcost⟩
      · exact Or.inl ⟨zv, hzv, by omega⟩
      · exact Or.inr ⟨sn, hsn, by omega⟩

theorem astarLoopC4 [DecidableEq N] (h : N → ℕ) (e : N → List (N × ℕ))
    (goalp : N → Bool) (start : N) (nodes : List N)
    (hclosed : ∀ n ∈ nodes, ∀ cw ∈ e n, cw.1 ∈ nodes)
    (hcons : ∀ n, ∀ cw ∈ e n, h n ≤ cw.2 + h cw.1)
    (hgoal0 : ∀ n, goalp n = true → h n = 0) :
    ∀ (fuel : ℕ) (m : SearchMap N) (ol : List (SearchNode N)),
      astarBundle h e goalp start nodes m ol → relaxInv h e m ol →
      ∀ (m' : SearchMap N) (og : Option N),
        astarLoop h e goalp fuel (m, ol) = some (m', og) →
        ((og = none → ∀ q z c, goalp z = true → CostedPath e start q z c →
            False) ∧
         (∀ u, og = some u → goalp u = true ∧ ∃ pv, lookupA m' u = some pv ∧
            ∀ q z c', goalp z = true → CostedPath e start q z c' →
              pv.2 ≤ c') ∧
         gSound e start m' ∧ parentEdge e m' ∧ startZero start m') := by
  intro fuel
  induction fuel with
  | zero =>
    intro m ol _ _ m' og heq
    cases heq
  | succ fuel ih =>
    intro m ol hb hri m' og heq
    obtain ⟨hsz, hgs, hge, hgo, hpe, hki⟩ := hb
    unfold astarLoop at heq
    cases hpop : popMin ol with
    | none =>
      rw [hpop] at heq
      have heq' : some (m, (none : Option N)) = some (m', og) := heq
      have h1 := Option.some_inj.mp heq'
      have hm : m = m' := congrArg Prod.fst h1
      have hog : (none : Option N) = og := congrArg Prod.snd h1
      subst hm
      subst hog
      have hempty : ol = [] := (popMin_eq_none ol).mp hpop
      subst hempty
      refine ⟨?_, ?_, hgs, hpe, hsz⟩
      · intro _ q z c hgz hpath
        obtain ⟨par, hstart⟩ := hsz
        rcases astar_cut h e hcons m [] hri start q z c hpath 0 (par, 0)
            hstart (le_refl 0) with ⟨zv, hzv, _⟩ | ⟨sn, hsn, _⟩
        · obtain ⟨sn, hsn, _, _⟩ := hgo z zv hzv hgz
          cases hsn
        · cases hsn
      · intro u hu
        cases hu
    | some snrest =>
      rw [hpop] at heq
      obtain ⟨sn, rest⟩ := snrest
      have hperm := popMin_perm ol sn rest hpop
      have hsnmem : sn ∈ ol := (popMin_mem ol sn rest hpop).1
      have heq' : (if goalp sn.node = true then some (m, some sn.node)
          else astarLoop h e goalp fuel
            ((e sn.node).foldl (relaxChild h sn.node) (m, rest))) =
          some (m', og) := heq
      by_cases hg : goalp sn.node = true
      · rw [if_pos hg] at heq'
        have h1 := Option.some_inj.mp heq'
        have hm : m = m' := congrArg Prod.fst h1
        have hog : (some sn.node : Option N) = og := congrArg Prod.snd h1
        subst hm
        subst hog
        refine ⟨?_, ?_, hgs, hpe, hsz⟩
        · intro hno
          cases hno
        intro u hu
        have huu : sn.node = u := Option.some_inj.mp hu
        subst huu
        obtain ⟨pv, hpv, hpvle⟩ := hge sn hsnmem
        refine ⟨hg, pv, hpv, ?_⟩
        intro q z c' hgz hpath
        obtain ⟨par, hstart⟩ := hsz
        have hh0 : h z = 0 := hgoal0 z hgz
        rcases astar_cut h e hcons m ol hri start q z c' hpath 0 (par, 0)
            hstart (le_refl 0) with ⟨zv, hzv, hzle⟩ | ⟨sn', hsn', hcost⟩
        · obtain ⟨sn', hsn', _, hcost'⟩ := hgo z zv hzv hgz
          have hmin := popMin_min ol sn rest hpop sn' hsn'
          omega
        · have hmin := popMin_min ol sn rest hpop sn' hsn'
          omega
      · rw [if_neg hg] at heq'
        have huin : sn.node ∈ nodes := hki.2 sn hsnmem
        obtain ⟨pu, hpu, _⟩ := hge sn hsnmem
        have hmemol : ∀ x ∈ rest, x ∈ ol := fun x hx =>
          (hperm.mem_iff).mpr (List.mem_cons_of_mem sn hx)
        have hge' : heapGE h m rest := fun x hx => hge x (hmemol x hx)
        have hgo' : goalsOpen h goalp m rest := by
          intro n pv hl hgz
          obtain ⟨sn', hsn', hnode, hcost⟩ := hgo n pv hl hgz
          have : sn' ∈ sn :: rest := (hperm.mem_iff).mp hsn'
          rcases List.mem_cons.mp this with hh | hh
          · exfalso
            rw [hh] at hnode
            rw [hnode] at hg
            exact hg hgz
          · exact ⟨sn', hh, hnode, hcost⟩
        have hki' : keysIn nodes m rest :=
          ⟨hki.1, fun x hx => hki.2 x (hmemol x hx)⟩
        have hrp : relaxPartial h e m rest sn.node [] := by
          intro n pv hl
          rcases hri n pv hl with hopen | hclosed
          · obtain ⟨sn', hsn', hnode, hcost⟩ := hopen
            have : sn' ∈ sn :: rest := (hperm.mem_iff).mp hsn'
            rcases List.mem_cons.mp this with hh | hh
            · refine Or.inr (Or.inr ⟨?_, by intro cw hcw; cases hcw⟩)
              rw [← hnode, hh]
            · exact Or.inl ⟨sn', hh, hnode, hcost⟩
          · exact Or.inr (Or.inl hclosed)
        have hfold := relaxFoldC4 h e goalp start nodes sn.node (e sn.node)
          [] (m, rest) pu rfl
          (fun cc hcc => hclosed sn.node huin cc hcc) hpu
          ⟨hsz, hgs, hge', hgo', hpe, hki'⟩ hrp
        exact ih _ _ hfold.2.1 hfold.2.2.1 m' og heq'

theorem reconstruct_costed [DecidableEq N] (e : N → List (N × ℕ))
    (m : SearchMap N) (start : N) (hroot : rootedMap start m)
    (hpe : parentEdge e m) :
    ∀ (fuel : ℕ) (n : N) (q : List N), reconstructLoop m fuel n = some q →
      ∀ pv, lookupA m n = some pv →
      ∃ cq, CostedPath e start q n cq ∧ cq ≤ pv.2 := by
  obtain ⟨s, hs⟩ := hpe
  intro fuel
  induction fuel with
  | zero =>
    intro n q hq
    cases hq
  | succ fuel ih =>
    intro n q hq pv hpv
    unfold reconstructLoop at hq
    rw [hpv] at hq
    obtain ⟨pp, pc⟩ := pv
    cases pp with
    | none =>
      have hq' : some [n] = some q := hq
      have hqq : [n] = q := Option.some_inj.mp hq'
      have hstart : n = start := hroot.1 n (none, pc) hpv rfl
      subst hstart
      rw [← hqq]
      exact ⟨0, CostedPath.single n, by omega⟩
    | some prev =>
      have hq' : (reconstructLoop m fuel prev).map (fun p => p ++ [n]) =
          some q := hq
      cases hrl : reconstructLoop m fuel prev with
      | none =>
        rw [hrl] at hq'
        cases hq'
      | some q' =>
        rw [hrl] at hq'
        have hqq : q' ++ [n] = q := Option.some_inj.mp hq'
        obtain ⟨w, pvp, hedge, hlp, hle, _⟩ := hs n prev pc hpv
        obtain ⟨cq', hpath', hle'⟩ := ih prev q' hrl pvp hlp
        refine ⟨cq' + w, ?_, by omega⟩
        rw [← hqq]
        exact hpath'.snoc hedge

theorem reconstruct_terminates [DecidableEq N] (e : N → List (N × ℕ))
    (m : SearchMap N) (hpe : parentEdge e m) :
    ∀ (n : N) (pv : Option N × ℕ), lookupA m n = some pv →
      ∃ fuel q, reconstructLoop m fuel n = some q := by
  obtain ⟨s, hs⟩ := hpe
  suffices H : ∀ (c st : ℕ) (n : N) (pv : Option N × ℕ),
      lookupA m n = some pv → pv.2 = c → s n = st →
      ∃ fuel q, reconstructLoop m fuel n = some q by
    intro n pv hl
    exact H pv.2 (s n) n pv hl rfl rfl
  intro c
  induction c using Nat.strong_induction_on with
  | _ c ih1 =>
    intro st
    induction st using Nat.strong_induction_on with
    | _ st ih2 =>
      intro n pv hl hc hst
      obtain ⟨pp, pc⟩ := pv
      cases pp with
      | none =>
        refine ⟨1, [n], ?_⟩
        unfold reconstructLoop
        rw [hl]
      | some prev =>
        obtain ⟨w, pvp, _hedge, hlp, _hle, hstrict⟩ := hs n prev pc hl
        have hrec : ∃ fuel q, reconstructLoop m fuel prev = some q := by
          rcases hstrict with hlt | ⟨heq, hslt⟩
          · exact ih1 pvp.2 (by dsimp at hc; omega) (s prev) prev pvp hlp
              rfl rfl
          · have hceq : pvp.2 = c := by dsimp at hc; omega
            rw [← hceq] at ih2
            exact ih2 (s prev) (by omega) prev pvp hlp rfl rfl
        obtain ⟨fuel, q, hq⟩ := hrec
        refine ⟨fuel + 1, q ++ [n], ?_⟩
        have hred : reconstructLoop m (fuel + 1) n =
            (reconstructLoop m fuel prev).map (fun p => p ++ [n]) := by
          conv_lhs => unfold reconstructLoop
          rw [hl]
        rw [hred, hq]
        rfl

theorem filter_length_le {α : Type} (p q : α → Bool) :
    ∀ (l : List α), (∀ x ∈ l, q x = true → p x = true) →
    (l.filter q).length ≤ (l.filter p).length := by
  intro l
  induction l with
  | nil => intro _; simp
  | cons a t ih =>
    intro hmono
    have ht := ih fun x hx => hmono x (List.mem_cons_of_mem a hx)
    by_cases hq : q a = true
    · rw [List.filter_cons_of_pos hq,
        List.filter_cons_of_pos (hmono a (List.mem_cons_self a t) hq)]
      simpa using ht
    · have hq' : q a = false := by
        revert hq
        cases q a <;> simp
      rw [List.filter_cons_of_neg (by simp [hq'])]
      by_cases hp : p a = true
      · rw [List.filter_cons_of_pos hp]
        simp
        omega
      · rw [List.filter_cons_of_neg hp]
        exact ht

theorem filter_length_lt {α : Type} (p q : α → Bool) :
    ∀ (l : List α) (x : α), x ∈ l → p x = true → q x = false →
    (∀ y ∈ l, q y = true → p y = true) →
    (l.filter q).length < (l.filter p).length := by
  intro l
  induction l with
  | nil => intro x hx; cases hx
  | cons a t ih =>
    intro x hx hp hq hmono
    have ht := filter_length_le p q t fun y hy =>
      hmono y (List.mem_cons_of_mem a hy)
    rcases List.mem_cons.mp hx with hxa | hxt
    · subst hxa
      rw [List.filter_cons_of_neg (by simp [hq]),
        List.filter_cons_of_pos hp]
      simp
      omega
    · by_cases hqa : q a = true
      · rw [List.filter_cons_of_pos hqa,
          List.filter_cons_of_pos (hmono a (List.mem_cons_self a t) hqa)]
        have := ih x hxt hp hq fun y hy => hmono y (List.mem_cons_of_mem a hy)
        simpa using this
      · rw [List.filter_cons_of_neg hqa]
        have hlt := ih x hxt hp hq fun y hy =>
          hmono y (List.mem_cons_of_mem a hy)
        by_cases hpa : p a = true
        · rw [List.filter_cons_of_pos hpa]
          simp
          omega
        · rw [List.filter_cons_of_neg hpa]
          exact hlt

theorem sum_map_le {α : Type} (f g : α → ℕ) :
    ∀ (l : List α), (∀ x ∈ l, f x ≤ g x) →
    (l.map f).sum ≤ (l.map g).sum := by
  intro l
  induction l with
  | nil => intro _; simp
  | cons a t ih =>
    intro hle
    have h1 := hle a (List.mem_cons_self a t)
    have h2 := ih fun x hx => hle x (List.mem_cons_of_mem a hx)
    simp only [List.map_cons, List.sum_cons]
    omega

theorem sum_map_lt {α : Type} (f g : α → ℕ) :
    ∀ (l : List α) (x : α), x ∈ l → f x < g x → (∀ y ∈ l, f y ≤ g y) →
    (l.map f).sum < (l.map g).sum := by
  intro l
  induction l with
  | nil => intro x hx; cases hx
  | cons a t ih =>
    intro x hx hlt hle
    simp only [List.map_cons, List.sum_cons]
    rcases List.mem_cons.mp hx with hxa | hxt
    · subst hxa
      have h2 := sum_map_le f g t fun y hy => hle y (List.mem_cons_of_mem x hy)
      omega
    · have h1 := hle a (List.mem_cons_self a t)
      have h2 := ih x hxt hlt fun y hy => hle y (List.mem_cons_of_mem a hy)
      omega

theorem insertA_fresh_measure [DecidableEq N] (nodes : List N)
    (m : SearchMap N) (v : N) (val : Option N × ℕ)
    (hfresh : lookupA m v = none) (hvin : v ∈ nodes) :
    unmappedCount nodes (insertA m v val) < unmappedCount nodes m := by
  unfold unmappedCount
  apply filter_length_lt
  · exact List.mem_dedup.mpr hvin
  · rw [hfresh]
    rfl
  · rw [lookupA_insertA_self]
    rfl
  · intro y _ hy
    by_cases hyv : y = v
    · subst hyv
      rw [lookupA_insertA_self] at hy
      cases hy
    · rw [lookupA_insertA_ne _ _ _ _ hyv] at hy
      exact hy

theorem insertA_overwrite_measure [DecidableEq N] (nodes : List N)
    (m : SearchMap N) (v : N) (val old : Option N × ℕ)
    (hold : lookupA m v = some old) (hlt : val.2 < old.2) (hvin : v ∈ nodes) :
    measureLt nodes (insertA m v val) m := by
  refine Or.inr ⟨?_, ?_⟩
  · unfold unmappedCount
    congr 1
    apply List.filter_congr
    intro y _
    by_cases hyv : y = v
    · subst hyv
      rw [lookupA_insertA_self, hold]
      rfl
    · rw [lookupA_insertA_ne _ _ _ _ hyv]
  · unfold sumG
    apply sum_map_lt
    · exact List.mem_dedup.mpr hvin
    · rw [lookupA_insertA_self, hold]
      exact hlt
    · intro y _
      by_cases hyv : y = v
      · subst hyv
        rw [lookupA_insertA_self, hold]
        exact le_of_lt hlt
      · rw [lookupA_insertA_ne _ _ _ _ hyv]

theorem measureLt_of_lt_eq [DecidableEq N] (nodes : List N)
    (m3 m2 m1 : SearchMap N) (h32 : measureLt nodes m3 m2 ∨ m3 = m2)
    (h21 : measureLt nodes m2 m1) : measureLt nodes m3 m1 := by
  rcases h32 with h32 | h32
  · unfold measureLt at *
    omega
  · subst h32
    exact h21

theorem relaxChild_measure [DecidableEq N] (h : N → ℕ) (u : N)
    (acc : SearchMap N × List (SearchNode N)) (cc : N × ℕ)
    (nodes : List N) (hccin : cc.1 ∈ nodes) :
    relaxChild h u acc cc = acc ∨
    measureLt nodes (relaxChild h u acc cc).1 acc.1 := by
  rcases relaxChild_cases h u acc cc with ⟨heq, _⟩ | ⟨hvlt, heq⟩
  · exact Or.inl heq
  · right
    rw [heq]
    cases hold : lookupA acc.1 cc.1 with
    | none =>
      exact Or.inl (insertA_fresh_measure nodes acc.1 cc.1 _ hold hccin)
    | some old =>
      exact insertA_overwrite_measure nodes acc.1 cc.1 _ old hold
        (hvlt old hold) hccin

theorem relaxFold_measure [DecidableEq N] (h : N → ℕ) (u : N)
    (nodes : List N) :
    ∀ (cs : List (N × ℕ)) (acc : SearchMap N × List (SearchNode N)),
      (∀ cc ∈ cs, cc.1 ∈ nodes) →
      cs.foldl (relaxChild h u) acc = acc ∨
      measureLt nodes (cs.foldl (relaxChild h u) acc).1 acc.1 := by
  intro cs
  induction cs with
  | nil => intro acc _; exact Or.inl rfl
  | cons cc rest ih =>
    intro acc hin
    rw [List.foldl_cons]
    rcases relaxChild_measure h u acc cc nodes
        (hin cc (List.mem_cons_self cc rest)) with hstep | hstep
    · rw [hstep]
      exact ih acc fun c hc => hin c (List.mem_cons_of_mem cc hc)
    · right
      rcases ih (relaxChild h u acc cc)
          (fun c hc => hin c (List.mem_cons_of_mem cc hc)) with hf | hf
      · rw [hf]
        exact hstep
      · exact measureLt_of_lt_eq nodes _ _ _ (Or.inl hf) hstep

theorem astar_terminates [DecidableEq N] (h : N → ℕ) (e : N → List (N × ℕ))
    (goalp : N → Bool) (start : N) (nodes : List N)
    (hclosed : ∀ n ∈ nodes, ∀ cw ∈ e n, cw.1 ∈ nodes) :
    ∀ (c1 c2 c3 : ℕ) (m : SearchMap N) (ol : List (SearchNode N)),
      astarBundle h e goalp start nodes m ol → relaxInv h e m ol →
      unmappedCount nodes m = c1 → sumG nodes m = c2 → ol.length = c3 →
      ∃ fuel r, astarLoop h e goalp fuel (m, ol) = some r := by
  intro c1
  induction c1 using Nat.strong_induction_on with
  | _ c1 ih1 =>
  intro c2
  induction c2 using Nat.strong_induction_on with
  | _ c2 ih2 =>
  intro c3
  induction c3 using Nat.strong_induction_on with
  | _ c3 ih3 =>
  intro m ol hb hri hc1 hc2 hc3
  cases hpop : popMin ol with
  | none =>
    refine ⟨1, (m, none), ?_⟩
    have hred : astarLoop h e goalp 1 (m, ol) =
        (match popMin ol with
        | none => some (m, none)
        | some (sn, rest) =>
          if goalp sn.node = true then some (m, some sn.node)
          else astarLoop h e goalp 0
            ((e sn.node).foldl (relaxChild h sn.node) (m, rest))) := rfl
    rw [hred, hpop]
  | some snrest =>
    obtain ⟨sn, rest⟩ := snrest
    have hperm := popMin_perm ol sn rest hpop
    have hsnmem : sn ∈ ol := (popMin_mem ol sn rest hpop).1
    obtain ⟨hsz, hgs, hge, hgo, hpe, hki⟩ := hb
    by_cases hg : goalp sn.node = true
    · refine ⟨1, (m, some sn.node), ?_⟩
      have hred : astarLoop h e goalp 1 (m, ol) =
          (match popMin ol with
          | none => some (m, none)
          | some (sn, rest) =>
            if goalp sn.node = true then some (m, some sn.node)
            else astarLoop h e goalp 0
              ((e sn.node).foldl (relaxChild h sn.node) (m, rest))) := rfl
      rw [hred, hpop]
      have : (if goalp sn.node = true then some (m, some sn.node)
          else astarLoop h e goalp 0
            ((e sn.node).foldl (relaxChild h sn.node) (m, rest))) =
          some (m, some sn.node) := by rw [if_pos hg]
      exact this
    · have huin : sn.node ∈ nodes := hki.2 sn hsnmem
      obtain ⟨pu, hpu, _⟩ := hge sn hsnmem
      have hmemol : ∀ x ∈ rest, x ∈ ol := fun x hx =>
        (hperm.mem_iff).mpr (List.mem_cons_of_mem sn hx)
      have hge' : heapGE h m rest := fun x hx => hge x (hmemol x hx)
      have hgo' : goalsOpen h goalp m rest := by
        intro n pv hl hgz
        obtain ⟨sn', hsn', hnode, hcost⟩ := hgo n pv hl hgz
        have hmem2 : sn' ∈ sn :: rest := (hperm.mem_iff).mp hsn'
        rcases List.mem_cons.mp hmem2 with hh | hh
        · exfalso
          rw [hh] at hnode
          rw [hnode] at hg
          exact hg hgz
        · exact ⟨sn', hh, hnode, hcost⟩
      have hki' : keysIn nodes m rest :=
        ⟨hki.1, fun x hx => hki.2 x (hmemol x hx)⟩
      have hrp : relaxPartial h e m rest sn.node [] := by
        intro n pv hl
        rcases hri n pv hl with hopen | hclosed2
        · obtain ⟨sn', hsn', hnode, hcost⟩ := hopen
          have hmem2 : sn' ∈ sn :: rest := (hperm.mem_iff).mp hsn'
          rcases List.mem_cons.mp hmem2 with hh | hh
          · refine Or.inr (Or.inr ⟨?_, by intro cw hcw; cases hcw⟩)
            rw [← hnode, hh]
          · exact Or.inl ⟨sn', hh, hnode, hcost⟩
        · exact Or.inr (Or.inl hclosed2)
      have hfold := relaxFoldC4 h e goalp start nodes sn.node (e sn.node)
        [] (m, rest) pu rfl
        (fun cc hcc => hclosed sn.node huin cc hcc) hpu
        ⟨hsz, hgs, hge', hgo', hpe, hki'⟩ hrp
      have hlen : ol.length = rest.length + 1 := by
        have := hperm.length_eq
        simpa using this
      have hrec : ∃ fuel r, astarLoop h e goalp fuel
          ((e sn.node).foldl (relaxChild h sn.node) (m, rest)) = some r := by
        rcases relaxFold_measure h sn.node nodes (e sn.node) (m, rest)
            (fun cc hcc => hclosed sn.node huin cc hcc) with hfm | hfm
        · rw [hfm]
          have hri2 := hfold.2.2.1
          rw [hfm] at hri2
          exact ih3 rest.length (by omega) m rest
            ⟨hsz, hgs, hge', hgo', hpe, hki'⟩ hri2 hc1 hc2 rfl
        · rcases hfm with hfm1 | ⟨hfm1, hfm2⟩
          · exact ih1
              (unmappedCount nodes
                ((e sn.node).foldl (relaxChild h sn.node) (m, rest)).1)
              (hc1 ▸ hfm1)
              (sumG nodes
                ((e sn.node).foldl (relaxChild h sn.node) (m, rest)).1)
              ((e sn.node).foldl (relaxChild h sn.node) (m, rest)).2.length
              _ _ hfold.2.1 hfold.2.2.1 rfl rfl rfl
          · exact ih2
              (sumG nodes
                ((e sn.node).foldl (relaxChild h sn.node) (m, rest)).1)
              (hc2 ▸ hfm2)
              ((e sn.node).foldl (relaxChild h sn.node) (m, rest)).2.length
              _ _ hfold.2.1 hfold.2.2.1 (hfm1.trans hc1) rfl rfl
      obtain ⟨fuel, r, hr⟩ := hrec
      refine ⟨fuel + 1, r, ?_⟩
      have hred : astarLoop h e goalp (fuel + 1) (m, ol) =
          (match popMin ol with
          | none => some (m, none)
          | some (sn, rest) =>
            if goalp sn.node = true then some (m, some sn.node)
            else astarLoop h e goalp fuel
              ((e sn.node).foldl (relaxChild h sn.node) (m, rest))) := rfl
      rw [hred, hpop]
      have hfin : (if goalp sn.node = true then some (m, some sn.node)
          else astarLoop h e goalp fuel
            ((e sn.node).foldl (relaxChild h sn.node) (m, rest))) = some r := by
        rw [if_neg hg]
        exact hr
      exact hfin

theorem astar_init_bundle [DecidableEq N] (h : N → ℕ) (e : N → List (N × ℕ))
    (goalp : N → Bool) (start : N) (nodes : List N) (hstart : start ∈ nodes) :
    astarBundle h e goalp start nodes [(start, ((none : Option N), 0))]
      [⟨start, h start⟩] ∧
    relaxInv h e [(start, ((none : Option N), 0))] [⟨start, h start⟩] := by
  have hlook0 : ∀ (n : N) pv,
      lookupA [(start, ((none : Option N), 0))] n = some pv →
      n = start ∧ pv = ((none : Option N), 0) := by
    intro n pv hl
    rw [lookupA_singleton] at hl
    by_cases hn : n = start
    · rw [if_pos hn] at hl
      exact ⟨hn, (Option.some_inj.mp hl).symm⟩
    · rw [if_neg hn] at hl
      cases hl
  have hwit : ∀ (n : N) (pv : Option N × ℕ), n = start →
      pv = ((none : Option N), 0) →
      ∃ sn ∈ [(⟨start, h start⟩ : SearchNode N)], sn.node = n ∧
        sn.cost ≤ pv.2 + h n := by
    intro n pv hn hpv
    subst hn
    rw [hpv]
    exact ⟨⟨n, h n⟩, List.mem_singleton_self _, rfl, by simp⟩
  refine ⟨⟨⟨none, by rw [lookupA_singleton, if_pos rfl]⟩, ?_, ?_, ?_, ?_, ?_⟩,
    ?_⟩
  · intro n pv hl
    obtain ⟨hn, hpv⟩ := hlook0 n pv hl
    subst hn
    exact ⟨[n], by rw [hpv]; exact CostedPath.single n⟩
  · intro sn hsn
    rw [List.mem_singleton] at hsn
    subst hsn
    exact ⟨((none : Option N), 0), by rw [lookupA_singleton, if_pos rfl],
      by simp⟩
  · intro n pv hl _
    obtain ⟨hn, hpv⟩ := hlook0 n pv hl
    exact hwit n pv hn hpv
  · refine ⟨fun _ => 0, ?_⟩
    intro n p cn hl
    obtain ⟨_, hpv⟩ := hlook0 n (some p, cn) hl
    have : (some p : Option N) = none := congrArg Prod.fst hpv
    cases this
  · constructor
    · intro n pv hl
      rw [(hlook0 n pv hl).1]
      exact hstart
    · intro sn hsn
      rw [List.mem_singleton] at hsn
      subst hsn
      exact hstart
  · intro n pv hl
    obtain ⟨hn, hpv⟩ := hlook0 n pv hl
    exact Or.inl (hwit n pv hn hpv)

/-- C4: on any finite graph (a universe of nodes closed under the expander)
with a consistent heuristic (`h n ≤ w + h c` across every edge and `h = 0`
at goal nodes), whenever some path from the start to a goal node exists, the
A-Star `best_search` — with enough fuel for its two loops, which always
exists — returns a pair `(p, c)` where `p` is an actual path of the graph
from the start to a goal node whose total edge cost is exactly `c`, and `c`
is minimal among the costs of all paths from the start to any goal node. -/
theorem astar_best_search_optimal [DecidableEq N] (h hb : N → ℕ)
    (e : N → List (N × ℕ)) (goalp : N → Bool) (start : N) (nodes : List N)
    (hstart : start ∈ nodes)
    (hclosed : ∀ n ∈ nodes, ∀ cw ∈ e n, cw.1 ∈ nodes)
    (hcons : ∀ n, ∀ cw ∈ e n, h n ≤ cw.2 + h cw.1)
    (hgoal0 : ∀ n, goalp n = true → h n = 0)
    (hreach : ∃ q z c, goalp z = true ∧ CostedPath e start q z c) :
    ∃ fuel rfuel p c vg,
      best_search h hb e goalp start fuel rfuel = some (p, c) ∧
      p.head? = some start ∧ p.getLast? = some vg ∧ goalp vg = true ∧
      CostedPath e start p vg c ∧
      ∀ q' z' c', goalp z' = true → CostedPath e start q' z' c' →
        c ≤ c' := by
  obtain ⟨hb0, hri0⟩ := astar_init_bundle h e goalp start nodes hstart
  have hroot0 : rootedMap start [(start, ((none : Option N), 0))] := by
    constructor
    · intro n pv hl _
      rw [lookupA_singleton] at hl
      by_cases he : n = start
      · exact he
      · rw [if_neg he] at hl
        cases hl
    · intro n q c0 hl
      rw [lookupA_singleton] at hl
      by_cases he : n = start
      · rw [if_pos he] at hl
        cases hl
      · rw [if_neg he] at hl
        cases hl
  have hopen0 : openInv [(start, ((none : Option N), 0))]
      [⟨start, h start⟩] := by
    intro sn hsn
    rw [List.mem_singleton] at hsn
    subst hsn
    rw [lookupA_singleton, if_pos rfl]
    rfl
  obtain ⟨fuel, r, hr⟩ := astar_terminates h e goalp start nodes hclosed
    (unmappedCount nodes [(start, ((none : Option N), 0))])
    (sumG nodes [(start, ((none : Option N), 0))]) 1
    [(start, ((none : Option N), 0))] [⟨start, h start⟩] hb0 hri0 rfl rfl rfl
  obtain ⟨m', og⟩ := r
  have hmain := astarLoopC4 h e goalp start nodes hclosed hcons hgoal0 fuel
    [(start, ((none : Option N), 0))] [⟨start, h start⟩] hb0 hri0 m' og hr
  have hrooted := astarLoop_inv h e goalp start fuel
    [(start, ((none : Option N), 0))] [⟨start, h start⟩] hroot0 hopen0 m' og
    hr
  cases og with
  | none =>
    exfalso
    obtain ⟨q, z, c, hgz, hpath⟩ := hreach
    exact hmain.1 rfl q z c hgz hpath
  | some u =>
    obtain ⟨hgu, pv, hpv, hopt⟩ := hmain.2.1 u rfl
    have hpe' : parentEdge e m' := hmain.2.2.2.1
    obtain ⟨rfuel, q, hq⟩ := reconstruct_terminates e m' hpe' u pv hpv
    have hshape := reconstructLoop_shape m' start hrooted.1 rfuel u q
      (by rw [hpv]; rfl) hq
    obtain ⟨cq, hpath, hcqle⟩ := reconstruct_costed e m' start hrooted.1
      hpe' rfuel u q hq pv hpv
    have hceq : cq = pv.2 := le_antisymm hcqle (hopt q u cq hgu hpath)
    have hbs : best_search h hb e goalp start fuel rfuel = some (q, pv.2) := by
      unfold best_search astar_search
      rw [hr]
      have hred : (match (some (m', some u) : Option (SearchMap N × Option N))
          with
        | none => none
        | some (distances, some g) => reconstruct_path distances rfuel g
        | some (distances, none) =>
          match minByKey (distances.filterMap fun e2 =>
              match e2.2.1 with
              | some _ => some (e2.1, hb e2.1)
              | none => none) with
          | none => none
          | some (bn, c) =>
            (reconstructLoop distances rfuel bn).map fun p => (p, c)) =
          reconstruct_path m' rfuel u := rfl
      rw [hred]
      unfold reconstruct_path
      rw [hpv, hq]
    refine ⟨fuel, rfuel, q, pv.2, u, hbs, hshape.2.1, hshape.2.2, hgu, ?_,
      hopt⟩
    rw [← hceq]
    exact hpath

theorem astar_best_search_optimal_witness :
    ((0 : ℕ) ∈ [0, 1] ∧
     (∀ n ∈ ([0, 1] : List ℕ),
       ∀ cw ∈ (if n = 0 then [((1 : ℕ), (1 : ℕ))] else []),
         cw.1 ∈ ([0, 1] : List ℕ)) ∧
     (∀ n : ℕ, ∀ cw ∈ (if n = 0 then [((1 : ℕ), (1 : ℕ))] else []),
       (0 : ℕ) ≤ cw.2 + 0) ∧
     (∀ n : ℕ, decide (n = 1) = true → (0 : ℕ) = 0) ∧
     (∃ q z c, decide (z = 1) = true ∧
       CostedPath (fun k : ℕ => if k = 0 then [((1 : ℕ), (1 : ℕ))] else [])
         0 q z c)) ∧
    (∃ fuel rfuel p c vg,
      best_search (fun _ : ℕ => 0) (fun _ => 0)
        (fun k : ℕ => if k = 0 then [((1 : ℕ), (1 : ℕ))] else [])
        (fun n => decide (n = 1)) 0 fuel rfuel = some (p, c) ∧
      p.head? = some 0 ∧ p.getLast? = some vg ∧ decide (vg = 1) = true ∧
      CostedPath (fun k : ℕ => if k = 0 then [((1 : ℕ), (1 : ℕ))] else [])
        0 p vg c ∧
      ∀ q' z' c', decide (z' = 1) = true →
        CostedPath (fun k : ℕ => if k = 0 then [((1 : ℕ), (1 : ℕ))] else [])
          0 q' z' c' → c ≤ c') := by
  have h1 : (0 : ℕ) ∈ [0, 1] := by decide
  have h2 : ∀ n ∈ ([0, 1] : List ℕ),
      ∀ cw ∈ (if n = 0 then [((1 : ℕ), (1 : ℕ))] else []),
        cw.1 ∈ ([0, 1] : List ℕ) := by decide
  have h3 : ∀ n : ℕ, ∀ cw ∈ (if n = 0 then [((1 : ℕ), (1 : ℕ))] else []),
      (0 : ℕ) ≤ cw.2 + 0 := fun n cw _ => Nat.zero_le _
  have h4 : ∀ n : ℕ, decide (n = 1) = true → (0 : ℕ) = 0 := fun _ _ => rfl
  have h5 : ∃ q z c, decide (z = 1) = true ∧
      CostedPath (fun k : ℕ => if k = 0 then [((1 : ℕ), (1 : ℕ))] else [])
        0 q z c :=
    ⟨[0, 1], 1, 1 + 0, by decide,
      CostedPath.cons 0 1 1 1 0 [1] (by simp) (CostedPath.single 1)⟩
  exact ⟨⟨h1, h2, h3, h4, h5⟩,
    astar_best_search_optimal (fun _ : ℕ => 0) (fun _ => 0)
      (fun k : ℕ => if k = 0 then [((1 : ℕ), (1 : ℕ))] else [])
      (fun n => decide (n = 1)) 0 [0, 1] h1 h2 h3 h4 h5⟩
